import Mathlib

/-!
Verification of the spa-from-scratch UI runtime.

This file is a shallow embedding of the core of the repository:
the frame scheduler (scheduler.ts), the hooks layer (hooks.ts,
class HookComponent), the component base class (component.ts with
shallowEqual), the virtual-DOM diff/patch engine (vdom.ts, second
revision: createRealNode, updateProps, patch, patchChildren) and the
tagged-template HTML compiler (jsx-vdom.ts).

JavaScript values that the code compares with the identity operator are
modelled by a small inductive type in which reference types (functions,
plain objects) carry a numeric identity, so that the strict-equality
operator of JavaScript becomes a decidable boolean function.  Stateful
classes become Lean structures and their methods become explicit state
transformers.  The task queue holds deep-embedded task descriptions
(the closures scheduled by this code base are of finitely many shapes).
The browser DOM, an external collaborator, is modelled as a store of
numbered nodes; every DOM mutation performed by the reconciler is both
applied to the store and appended to a trace so that theorems can speak
about which mutations a call performed.
-/

/-! ## JavaScript values -/

/-- A JavaScript value as stored in a hook slot or passed to a setter.
Reference values (functions, objects) carry a numeric identity standing
for their reference, so strict equality is decidable. -/
inductive HVal where
  | num (n : Int)
  | str (s : String)
  | boolv (b : Bool)
  | fnv (id : Nat)
  | obj (id : Nat)
  | undef
deriving DecidableEq, Repr

/-- JavaScript strict equality on hook values: primitives by value,
functions and objects by reference identity. -/
def identEqH : HVal → HVal → Bool
  | .num a, .num b => a == b
  | .str a, .str b => a == b
  | .boolv a, .boolv b => a == b
  | .fnv a, .fnv b => a == b
  | .obj a, .obj b => a == b
  | .undef, .undef => true
  | _, _ => false

theorem identEqH_refl (v : HVal) : identEqH v v = true := by
  cases v <;> simp [identEqH]

/-- A JavaScript value sitting in a props record (attributes, event
handlers, style objects).  Functions carry their reference identity;
plain objects (style maps) carry a reference identity together with
their own fields, two objects with the same identity being the same
object. -/
inductive PValue where
  | str (s : String)
  | num (n : Int)
  | boolean (b : Bool)
  | fn (id : Nat)
  | objv (id : Nat) (fields : List (String × String))
  | nullv
deriving DecidableEq, Repr

/-- JavaScript strict equality on prop values: primitives by value,
functions and objects by reference identity. -/
def identEqP : PValue → PValue → Bool
  | .str a, .str b => a == b
  | .num a, .num b => a == b
  | .boolean a, .boolean b => a == b
  | .fn a, .fn b => a == b
  | .objv a _, .objv b _ => a == b
  | .nullv, .nullv => true
  | _, _ => false

theorem identEqP_refl (v : PValue) : identEqP v v = true := by
  cases v <;> simp [identEqP]

/-- A props record: ordered key/value entries, keys unique as in a
JavaScript object literal. -/
abbrev Props := List (String × PValue)

/-- Reading a property (obj[key]): the value when the key is present,
undefined (none) otherwise. -/
def propsLookup (k : String) (p : Props) : Option PValue :=
  (p.find? (fun e => e.1 == k)).map (·.2)

/-- The in-operator / hasOwnProperty test. -/
def hasOwnProp (k : String) (p : Props) : Bool :=
  (propsLookup k p).isSome

/-- Strict equality of two property reads (undefined compares equal
only to undefined). -/
def identEqOpt : Option PValue → Option PValue → Bool
  | some a, some b => identEqP a b
  | none, none => true
  | _, _ => false

/-- Well-formedness of a props record: the keys of a JavaScript object
are pairwise distinct. -/
def NoDupKeys (p : Props) : Prop := (p.map (·.1)).Nodup

/-! ## Scheduler (scheduler.ts)

The queue holds deep-embedded descriptions of the closures this code
base actually schedules: the no-op left behind by cancelTask, the
HookComponent flush closure, the batchUpdates closure over a list of
pending state updates, the base-class updateUI closure and the
HookComponent constructor's deferred initial render. -/

/-- The argument of a useState setter: either a plain next value or an
updater function of the previous value (typeof newState === 'function'
dispatch in the source). -/
inductive SetArgT where
  | val (v : HVal)
  | updater (f : HVal → HVal)

/-- One pending functional or value state update, as pushed onto
pendingStateUpdates by a useState setter: the captured slot index and
the argument the setter was called with. -/
structure UpdateFn where
  index : Nat
  arg : SetArgT

/-- A scheduled task (deep embedding of the closures passed to
scheduleTask in this code base). -/
inductive STask where
  | noop
  | flushHook
  | runBatch (updates : List UpdateFn)
  | baseUpdateUI
  | initialHookRender

/-- Scheduler module state (the module-level variables of
scheduler.ts): task queue, id-to-index map, frame flag and the id
counter. -/
structure Sched where
  taskQueue : List STask := []
  taskMap : List (Nat × Nat) := []
  frameScheduled : Bool := false
  nextTaskId : Nat := 1

/-- Lookup in the task map (Map.get). -/
def mapLookup (id : Nat) (m : List (Nat × Nat)) : Option Nat :=
  (m.find? (fun p => p.1 == id)).map (·.2)

/-- scheduleTask: push the task, record its queue index under a fresh
id, mark a frame as scheduled, return the id. -/
def scheduleTask (t : STask) (s : Sched) : Nat × Sched :=
  (s.nextTaskId,
    { taskQueue := s.taskQueue ++ [t]
      taskMap := s.taskMap ++ [(s.nextTaskId, s.taskQueue.length)]
      frameScheduled := true
      nextTaskId := s.nextTaskId + 1 })

/-- cancelTask: if the id is still mapped, overwrite the queue slot
with a no-op, drop the map entry and return true; otherwise return
false and change nothing. -/
def cancelTask (id : Nat) (s : Sched) : Bool × Sched :=
  match mapLookup id s.taskMap with
  | some idx =>
      (true,
        { s with
            taskQueue := s.taskQueue.set idx STask.noop
            taskMap := s.taskMap.filter (fun p => p.1 ≠ id) })
  | none => (false, s)

/-- batchUpdates: schedule a single task that runs the whole group. -/
def batchUpdates (updates : List UpdateFn) (s : Sched) : Sched :=
  (scheduleTask (STask.runBatch updates) s).2

/-! ## Hook component state (hooks.ts + component.ts base fields)

A single component instance suffices for the claims under scrutiny.
The structure merges the private fields of HookComponent with the base
Component fields it interacts with (shouldUpdate, updateScheduled).
renderedOutput models the content last applied by replaceContents;
cleanupsRun, effectsRun and factoryCalls are instrumentation recording
which cleanup functions, effect callbacks and memo factories were
invoked, so that theorems can speak about invocations. -/

/-- One hook state slot (the dynamic any-array entries of hookStates,
split by the shape each hook stores). -/
inductive Slot where
  | state (v : HVal)
  | refCell (current : HVal)
  | memo (value : HVal) (deps : Option (List HVal))
  | effect (deps : Option (List HVal)) (cleanup : Option Nat)
  | ctxSub (cleanup : Nat)
deriving DecidableEq, Repr

/-- Reading a slot the way useState reads hookStates at its index.  The
source stores the bare value for state slots; reading a slot written by
a different hook kind is the documented undefined behaviour and is
modelled as undef. -/
def slotStateVal : Slot → HVal
  | .state v => v
  | _ => HVal.undef

/-- The deps stored in a slot, as read by useMemo (memo.deps; absent or
foreign slots read as undefined). -/
def slotDeps : Slot → Option (List HVal)
  | .memo _ d => d
  | .effect d _ => d
  | _ => none

/-- The cached value stored in a memo slot (memo.value). -/
def slotMemoValue : Slot → HVal
  | .memo v _ => v
  | _ => HVal.undef

structure Comp where
  props : Props := []
  hookStates : List Slot := []
  hookIndex : Nat := 0
  initialRenderComplete : Bool := false
  isBatchingUpdates : Bool := false
  pendingStateUpdates : List UpdateFn := []
  updateTaskId : Option Nat := none
  shouldUpdate : Bool := true
  updateScheduled : Option Nat := none
  renderedOutput : Option HVal := none
  cleanupsRun : List Nat := []
  effectsRun : List Nat := []
  factoryCalls : List Nat := []

/-- The single-component machine: the component instance plus the
module-level scheduler state. -/
structure Machine where
  comp : Comp
  sched : Sched

/-- A render function: reads and writes the component's hook state and
produces the optional VNode content (modelled by the hook value it
renders).  Render functions cannot touch the scheduler: none of the
hooks they call during render do. -/
def RenderFn : Type := Comp → Comp × Option HVal

/-! ### Hooks -/

/-- useState: consume the next hook index, initialise the slot on first
encounter, return the current value together with the slot index the
returned setter closure captures. -/
def useState (initialState : HVal) (c : Comp) : (HVal × Nat) × Comp :=
  let index := c.hookIndex
  let c := { c with hookIndex := index + 1 }
  let c :=
    if index ≥ c.hookStates.length then
      { c with hookStates := c.hookStates ++ [Slot.state initialState] }
    else c
  ((slotStateVal (c.hookStates.getD index (Slot.state HVal.undef)), index), c)

/-- The body of the updateFn closure a setter pushes: recompute the
next state from the current slot (functional updaters read the slot at
run time) and write it back when it differs by identity. -/
def applyUpdateFn (c : Comp) (u : UpdateFn) : Comp :=
  let current := slotStateVal (c.hookStates.getD u.index (Slot.state HVal.undef))
  let nextState :=
    match u.arg with
    | .val v => v
    | .updater f => f current
  if identEqH current nextState then c
  else { c with hookStates := c.hookStates.set u.index (Slot.state nextState) }

/-- The setter returned by useState for slot idx, called with arg:
always push the update; when not already batching, start batching and,
when no component task is pending, schedule the flush through the
scheduler. -/
def setState (idx : Nat) (arg : SetArgT) (m : Machine) : Machine :=
  let comp :=
    { m.comp with pendingStateUpdates := m.comp.pendingStateUpdates ++ [⟨idx, arg⟩] }
  if comp.isBatchingUpdates then { m with comp := comp }
  else
    let comp := { comp with isBatchingUpdates := true }
    match comp.updateTaskId with
    | some _ => { m with comp := comp }
    | none =>
        let (tid, sched) := scheduleTask STask.flushHook m.sched
        { comp := { comp with updateTaskId := some tid }, sched := sched }

/-- Component.scheduleUpdate: schedule the updateUI task unless one is
already pending. -/
def scheduleUpdate (m : Machine) : Machine :=
  match m.comp.updateScheduled with
  | some _ => m
  | none =>
      let (tid, sched) := scheduleTask STask.baseUpdateUI m.sched
      { comp := { m.comp with updateScheduled := some tid }, sched := sched }

/-- HookComponent.flushStateUpdates: when batching with a non-empty
pending list, stop batching, hand the copied updates to batchUpdates
(which schedules them as one task) and schedule a single re-render. -/
def flushStateUpdates (m : Machine) : Machine :=
  if !m.comp.isBatchingUpdates || m.comp.pendingStateUpdates.isEmpty then m
  else
    let updates := m.comp.pendingStateUpdates
    let comp := { m.comp with isBatchingUpdates := false, pendingStateUpdates := [] }
    let sched := batchUpdates updates m.sched
    scheduleUpdate { comp := comp, sched := sched }

/-- HookComponent.resetHookIndices. -/
def resetHookIndices (c : Comp) : Comp := { c with hookIndex := 0 }

/-- HookComponent.renderWithHooks: reset the cursor, remember the
previous slot count, run render, and when fewer hooks were used than
slots exist, trim the trailing slots by index (a plain splice). -/
def renderWithHooks (render : RenderFn) (c : Comp) : Comp × Option HVal :=
  let c := resetHookIndices c
  let prevHookStateLength := c.hookStates.length
  let (c, content) := render c
  let c :=
    if c.hookIndex < prevHookStateLength then
      { c with hookStates := c.hookStates.take c.hookIndex }
    else c
  (c, content)

/-- Component.replaceContents as observed through the hook component:
record the rendered content. -/
def replaceContents (c : Comp) (v : HVal) : Comp :=
  { c with renderedOutput := some v }

/-- HookComponent.updateUI: render with hooks and apply the content
when one was returned. -/
def updateUI (render : RenderFn) (c : Comp) : Comp :=
  let (c, content) := renderWithHooks render c
  match content with
  | some v => replaceContents c v
  | none => c

/-! ### Task interpretation and frames -/

/-- Run one scheduled task (the bodies of the closures this code base
passes to scheduleTask). -/
def runTask (render : RenderFn) (m : Machine) (t : STask) : Machine :=
  match t with
  | .noop => m
  | .flushHook =>
      let m := flushStateUpdates m
      { m with comp := { m.comp with updateTaskId := none } }
  | .runBatch updates =>
      { m with comp := updates.foldl applyUpdateFn m.comp }
  | .baseUpdateUI =>
      { m with comp := { updateUI render m.comp with updateScheduled := none } }
  | .initialHookRender =>
      let comp :=
        if m.comp.initialRenderComplete then (renderWithHooks render m.comp).1
        else m.comp
      { m with comp := { comp with updateTaskId := none } }

/-- processTaskQueue: copy the queue, clear queue, map and frame flag,
then execute the copied tasks in order (newly scheduled tasks land in
the next frame). -/
def processTaskQueue (render : RenderFn) (m : Machine) : Machine :=
  let tasks := m.sched.taskQueue
  let m :=
    { m with
        sched :=
          { m.sched with taskQueue := [], taskMap := [], frameScheduled := false } }
  tasks.foldl (runTask render) m

/-- Run animation frames until the queue is empty (bounded by fuel). -/
def runFrames (render : RenderFn) : Nat → Machine → Machine
  | 0, m => m
  | fuel + 1, m =>
      if m.sched.taskQueue.isEmpty then m
      else runFrames render fuel (processTaskQueue render m)

/-- Construction of a HookComponent: the base constructor schedules the
deferred initial updateUI, then the hook constructor marks the initial
render complete and schedules its own deferred renderWithHooks. -/
def newHookComponent : Machine :=
  let s0 : Sched := {}
  let (id1, s1) := scheduleTask STask.baseUpdateUI s0
  let c0 : Comp := { updateScheduled := some id1, initialRenderComplete := true }
  let (id2, s2) := scheduleTask STask.initialHookRender s1
  { comp := { c0 with updateTaskId := some id2 }, sched := s2 }

/-! ### The counter scenario (spec section 8, end-to-end) -/

/-- The counter component's render: one useState(0) call whose value is
the rendered content. -/
def counterRender : RenderFn := fun c =>
  let ((v, _idx), c) := useState (HVal.num 0) c
  (c, some v)

/-- The functional updater prev => prev + 1. -/
def incArg : SetArgT :=
  SetArgT.updater (fun v => match v with | HVal.num n => HVal.num (n + 1) | x => x)

/-- The constructed counter after its initial frame has run. -/
def counterAfterInit : Machine := runFrames counterRender 4 newHookComponent

/-- Three setState(prev => prev + 1) calls in one synchronous turn. -/
def counterAfterSets : Machine :=
  setState 0 incArg (setState 0 incArg (setState 0 incArg counterAfterInit))

/-- The machine after the scheduled flush cascade has completed. -/
def counterFinal : Machine := runFrames counterRender 4 counterAfterSets

/-! ## Claim C2: batched functional state updates compose -/

/-- C2: for the counter component (render calls useState(0)), three
setState(prev => prev + 1) calls in one synchronous turn before the
scheduled flush fires coalesce into a single scheduled flush task; each
functional updater observes the effect of the previous one in call
order, and after the flush cascade completes the rendered count is 3,
not 1. -/
theorem c2_batched_updates_compose :
    counterAfterSets.sched.taskQueue = [STask.flushHook]
      ∧ counterAfterSets.comp.pendingStateUpdates.length = 3
      ∧ counterFinal.comp.renderedOutput = some (HVal.num 3)
      ∧ counterFinal.comp.hookStates = [Slot.state (HVal.num 3)]
      ∧ counterFinal.comp.renderedOutput ≠ some (HVal.num 1) := by
  refine ⟨rfl, rfl, rfl, rfl, ?_⟩
  intro h
  simp only [counterFinal] at h
  exact absurd (Option.some.inj h) (by decide)

/-! ## Claim C3: when does the setter schedule a flush? -/

/-- The machine after calling the counter's setter with the value the
slot already holds (0, identity-equal to the current state). -/
def c3SameValue : Machine := setState 0 (SetArgT.val (HVal.num 0)) counterAfterInit

/-- C3 counterexample: the claim says a setter call with a value
identity-equal to the current slot value never causes a flush to be
scheduled.  In the code the setter never compares the value before
scheduling: starting from the idle counter (slot value 0, empty task
queue), setState(0) pushes an update and schedules a flush task. -/
theorem c3_counterexample :
    counterAfterInit.comp.hookStates = [Slot.state (HVal.num 0)]
      ∧ counterAfterInit.sched.taskQueue = []
      ∧ c3SameValue.sched.taskQueue = [STask.flushHook]
      ∧ c3SameValue.comp.pendingStateUpdates.length = 1 :=
  ⟨rfl, rfl, rfl, rfl⟩

/-- C3 amended: every setter call (changed value or not) pushes its
update; the first call while not batching and with no pending component
task schedules exactly one flush; calls made while batching add no
scheduling; and the flush, when it fires, hands exactly the whole
pending queue to one batch task and schedules a single re-render. -/
theorem c3_amended (m : Machine) (idx : Nat) (arg : SetArgT) :
    (m.comp.isBatchingUpdates = false → m.comp.updateTaskId = none →
        (setState idx arg m).sched.taskQueue = m.sched.taskQueue ++ [STask.flushHook]
          ∧ (setState idx arg m).comp.pendingStateUpdates
              = m.comp.pendingStateUpdates ++ [⟨idx, arg⟩]
          ∧ (setState idx arg m).comp.isBatchingUpdates = true)
      ∧ (m.comp.isBatchingUpdates = true →
        (setState idx arg m).sched = m.sched
          ∧ (setState idx arg m).comp.pendingStateUpdates
              = m.comp.pendingStateUpdates ++ [⟨idx, arg⟩])
      ∧ (m.comp.isBatchingUpdates = true → m.comp.pendingStateUpdates ≠ [] →
        (flushStateUpdates m).sched.taskQueue
            = m.sched.taskQueue ++ [STask.runBatch m.comp.pendingStateUpdates]
              ++ (match m.comp.updateScheduled with
                  | none => [STask.baseUpdateUI]
                  | some _ => [])
          ∧ (flushStateUpdates m).comp.pendingStateUpdates = []) := by
  refine ⟨?_, ?_, ?_⟩
  · intro hb ht
    simp [setState, hb, ht, scheduleTask]
  · intro hb
    simp [setState, hb]
  · intro hb hp
    have hne : m.comp.pendingStateUpdates.isEmpty = false := by
      cases h : m.comp.pendingStateUpdates with
      | nil => exact absurd h hp
      | cons a l => simp [h]
    cases hs : m.comp.updateScheduled with
    | none =>
        simp [flushStateUpdates, hb, hne, batchUpdates, scheduleTask, scheduleUpdate, hs]
    | some k =>
        simp [flushStateUpdates, hb, hne, batchUpdates, scheduleTask, scheduleUpdate, hs]

/-- C3 amended, witness: the general theorem applied at concrete
machines, each hypothesis discharged there. -/
theorem c3_amended_witness :
    ((setState 0 incArg counterAfterInit).sched.taskQueue
        = counterAfterInit.sched.taskQueue ++ [STask.flushHook])
      ∧ ((setState 0 incArg c3SameValue).sched = c3SameValue.sched)
      ∧ ((flushStateUpdates c3SameValue).comp.pendingStateUpdates = []) := by
  refine ⟨((c3_amended counterAfterInit 0 incArg).1 rfl rfl).1,
          ((c3_amended c3SameValue 0 incArg).2.1 rfl).1,
          ((c3_amended c3SameValue 0 incArg).2.2 rfl ?_).2⟩
  exact List.cons_ne_nil _ _

/-! ## Claim C5: render-cycle hook invariant -/

/-- A crude model of the serialisation JSON.stringify gives a deps
entry: numbers, strings and booleans by value; functions serialise to
null inside arrays.  Object entries are approximated by their identity
(this branch is not exercised by the theorems below). -/
def jsonEqV : HVal → HVal → Bool
  | .num a, .num b => a == b
  | .str a, .str b => a == b
  | .boolv a, .boolv b => a == b
  | .fnv _, .fnv _ => true
  | .obj a, .obj b => a == b
  | .undef, .undef => true
  | _, _ => false

/-- useEffect: consume the next hook index, initialise the slot, decide
shouldRun (no deps, no previous deps, changed length, or changed
serialised content), and when running, first invoke the previous
cleanup, then the callback, then store the new deps and cleanup.  The
callback is deep-embedded as its id together with the cleanup id it
returns; running either is recorded in the instrumentation lists. -/
def useEffectH (effectId : Nat) (cleanupId : Option Nat) (deps : Option (List HVal))
    (c : Comp) : Comp :=
  let index := c.hookIndex
  let c := { c with hookIndex := index + 1 }
  let c :=
    if index ≥ c.hookStates.length then
      { c with hookStates := c.hookStates ++ [Slot.effect none none] }
    else c
  let prev := c.hookStates.getD index (Slot.effect none none)
  let prevDeps := slotDeps prev
  let prevCleanup :=
    match prev with
    | .effect _ cl => cl
    | _ => none
  let shouldRun :=
    deps.isNone || prevDeps.isNone
      || (deps.getD []).length != (prevDeps.getD []).length
      || !((deps.getD []).zip (prevDeps.getD [])).all fun p => jsonEqV p.1 p.2
  if shouldRun then
    let c :=
      match prevCleanup with
      | some cl => { c with cleanupsRun := c.cleanupsRun ++ [cl] }
      | none => c
    let c := { c with effectsRun := c.effectsRun ++ [effectId] }
    { c with hookStates := c.hookStates.set index (Slot.effect deps cleanupId) }
  else c

/-- A render that uses a state hook and then an effect hook (the effect
callback has id 5 and returns the cleanup with id 7). -/
def renderCounterAndEffect : RenderFn := fun c =>
  let ((v, _idx), c) := useState (HVal.num 0) c
  let c := useEffectH 5 (some 7) (some []) c
  (c, some v)

/-- First render of a fresh instance with the two-hook render. -/
def c5First : Comp := (renderWithHooks renderCounterAndEffect {}).1

/-- Second render of the same instance with the one-hook render (the
effect call was conditionally skipped this time). -/
def c5Second : Comp := (renderWithHooks counterRender c5First).1

/-- C5 counterexample: the claim says the cleanup of each trimmed slot
is invoked.  After a render that stops calling the second hook, the
effect slot holding cleanup 7 is trimmed by index, but no cleanup runs:
renderWithHooks splices the hookStates array and never touches the
trimmed slots' cleanup functions. -/
theorem c5_counterexample :
    c5First.hookStates = [Slot.state (HVal.num 0), Slot.effect (some []) (some 7)]
      ∧ c5Second.hookStates = [Slot.state (HVal.num 0)]
      ∧ c5Second.cleanupsRun = [] :=
  ⟨rfl, rfl, rfl⟩

/-- C5 amended: the hook cursor is reset to zero before the render
function runs, and when the render finishes with the cursor smaller
than the previous slot count the stale trailing slots are removed
strictly by index (a take at the cursor, never content matching) —
but the cleanup functions of the trimmed slots are NOT invoked. -/
theorem c5_amended (c : Comp) (render : RenderFn) :
    resetHookIndices c = { c with hookIndex := 0 }
      ∧ ((render { c with hookIndex := 0 }).1.hookIndex < c.hookStates.length →
        (renderWithHooks render c).1.hookStates
            = (render { c with hookIndex := 0 }).1.hookStates.take
                (render { c with hookIndex := 0 }).1.hookIndex
          ∧ (renderWithHooks render c).1.cleanupsRun
              = (render { c with hookIndex := 0 }).1.cleanupsRun
          ∧ (renderWithHooks render c).2 = (render { c with hookIndex := 0 }).2) := by
  constructor
  · rfl
  · intro h
    simp only [renderWithHooks, resetHookIndices, if_pos h]
    exact ⟨trivial, trivial, trivial⟩

/-- C5 amended, witness: applied to the concrete shrinking render pair,
the hypothesis (cursor 1 below previous slot count 2) discharged by
evaluation. -/
theorem c5_amended_witness :
    (renderWithHooks counterRender c5First).1.hookStates
        = (counterRender { c5First with hookIndex := 0 }).1.hookStates.take
            (counterRender { c5First with hookIndex := 0 }).1.hookIndex
      ∧ (renderWithHooks counterRender c5First).1.cleanupsRun
          = (counterRender { c5First with hookIndex := 0 }).1.cleanupsRun :=
  ⟨((c5_amended c5First counterRender).2 (by decide)).1,
   ((c5_amended c5First counterRender).2 (by decide)).2.1⟩

/-! ## Claim C6: task cancellation semantics -/

/-- Helper: reading the overwritten slot of a list. -/
theorem get_opt_set_self {α : Type} :
    ∀ (l : List α) (i : Nat) (a : α), i < l.length → (l.set i a).get? i = some a
  | [], i, a, h => absurd h (by simp)
  | _ :: _, 0, a, _ => rfl
  | _ :: l, i + 1, a, h =>
      get_opt_set_self l i a (Nat.lt_of_succ_lt_succ (by simpa using h))

/-- Helper: reading inside the left part of an appended list. -/
theorem get_opt_append_left {α : Type} :
    ∀ (l l2 : List α) (i : Nat), i < l.length → (l ++ l2).get? i = l.get? i
  | [], _, i, h => absurd h (by simp)
  | _ :: _, _, 0, _ => rfl
  | _ :: l, l2, i + 1, h =>
      get_opt_append_left l l2 i (Nat.lt_of_succ_lt_succ (by simpa using h))

/-- Later scheduleTask calls only append, so they cannot disturb an
already-occupied queue position. -/
theorem foldl_scheduleTask_get (later : List STask) :
    ∀ (s : Sched) (i : Nat), i < s.taskQueue.length →
      ((later.foldl (fun s t => (scheduleTask t s).2) s).taskQueue).get? i
        = s.taskQueue.get? i := by
  induction later with
  | nil => intro s i _; rfl
  | cons t rest ih =>
      intro s i h
      have hlen : i < ((scheduleTask t s).2).taskQueue.length := by
        simp only [scheduleTask, List.length_append, List.length_singleton]
        omega
      have := ih ((scheduleTask t s).2) i hlen
      rw [List.foldl_cons, this]
      simp only [scheduleTask]
      exact get_opt_append_left _ _ _ h

/-- All ids the scheduler state maps are at least n, and the id counter
is at least n (fresh ids stay fresh). -/
def schedKeysGE (n : Nat) (s : Sched) : Prop :=
  (∀ p ∈ s.taskMap, n ≤ p.1) ∧ n ≤ s.nextTaskId

theorem scheduleTask_keysGE {n : Nat} {s : Sched} (t : STask)
    (h : schedKeysGE n s) : schedKeysGE n (scheduleTask t s).2 := by
  obtain ⟨h1, h2⟩ := h
  constructor
  · intro p hp
    simp only [scheduleTask, List.mem_append, List.mem_singleton] at hp
    rcases hp with hp | hp
    · exact h1 p hp
    · subst hp; exact h2
  · simp only [scheduleTask]; omega

theorem scheduleUpdate_keysGE {n : Nat} {m : Machine}
    (h : schedKeysGE n m.sched) : schedKeysGE n (scheduleUpdate m).sched := by
  unfold scheduleUpdate
  cases m.comp.updateScheduled with
  | some _ => exact h
  | none => exact scheduleTask_keysGE _ h

theorem flushStateUpdates_keysGE {n : Nat} {m : Machine}
    (h : schedKeysGE n m.sched) : schedKeysGE n (flushStateUpdates m).sched := by
  unfold flushStateUpdates
  by_cases hc : (!m.comp.isBatchingUpdates || m.comp.pendingStateUpdates.isEmpty) = true
  · simp only [hc, if_true]; exact h
  · simp only [hc, if_false]
    exact scheduleUpdate_keysGE (m := ⟨_, _⟩) (scheduleTask_keysGE _ h)

theorem runTask_keysGE {n : Nat} {m : Machine} (render : RenderFn) (t : STask)
    (h : schedKeysGE n m.sched) : schedKeysGE n (runTask render m t).sched := by
  cases t with
  | noop => exact h
  | flushHook => exact flushStateUpdates_keysGE h
  | runBatch us => exact h
  | baseUpdateUI => exact h
  | initialHookRender => exact h

theorem foldl_runTask_keysGE {n : Nat} (render : RenderFn) (ts : List STask) :
    ∀ (m : Machine), schedKeysGE n m.sched →
      schedKeysGE n (ts.foldl (runTask render) m).sched := by
  induction ts with
  | nil => intro m h; exact h
  | cons t rest ih =>
      intro m h
      exact ih (runTask render m t) (runTask_keysGE render t h)

/-- After a flush fires, every mapped id is fresh (at least the id
counter at copy time), so an id handed out before the flush is gone. -/
theorem processTaskQueue_keysGE (render : RenderFn) (m : Machine) :
    schedKeysGE m.sched.nextTaskId (processTaskQueue render m).sched := by
  unfold processTaskQueue
  apply foldl_runTask_keysGE
  exact ⟨fun p hp => absurd hp (by simp), Nat.le_refl _⟩

theorem mapLookup_none_of_keysGE {id n : Nat} {mp : List (Nat × Nat)}
    (h : ∀ p ∈ mp, n ≤ p.1) (hid : id < n) : mapLookup id mp = none := by
  unfold mapLookup
  rw [List.find?_eq_none.2]
  · rfl
  · intro p hp
    have := h p hp
    simp only [beq_iff_eq]
    omega

/-- C6: cancellation before the flush fires replaces exactly the
cancelled task with a no-op (returning true, the no-op task performing
nothing when the flush later runs it, with later scheduling unable to
resurrect the slot); cancellation after the containing flush has fired
is rejected: it returns false and leaves the scheduler unchanged. -/
theorem c6_cancellation (s : Sched) (id idx : Nat) (render : RenderFn) (m : Machine)
    (h1 : mapLookup id s.taskMap = some idx) (h2 : idx < s.taskQueue.length)
    (h3 : id < m.sched.nextTaskId) :
    (cancelTask id s).1 = true
      ∧ (cancelTask id s).2.taskQueue = s.taskQueue.set idx STask.noop
      ∧ (cancelTask id s).2.taskQueue.get? idx = some STask.noop
      ∧ (∀ later : List STask,
          ((later.foldl (fun s t => (scheduleTask t s).2)
              (cancelTask id s).2).taskQueue).get? idx = some STask.noop)
      ∧ (∀ m₀ : Machine, runTask render m₀ STask.noop = m₀)
      ∧ cancelTask id (processTaskQueue render m).sched
          = (false, (processTaskQueue render m).sched) := by
  refine ⟨?_, ?_, ?_, ?_, ?_, ?_⟩
  · simp [cancelTask, h1]
  · simp [cancelTask, h1]
  · simp only [cancelTask, h1]
    exact get_opt_set_self _ _ _ (by simpa using h2)
  · intro later
    have hlen : idx < ((cancelTask id s).2).taskQueue.length := by
      simp only [cancelTask, h1, List.length_set]
      exact h2
    rw [foldl_scheduleTask_get later _ idx hlen]
    simp only [cancelTask, h1]
    exact get_opt_set_self _ _ _ (by simpa using h2)
  · intro m₀; rfl
  · have hk := processTaskQueue_keysGE render m
    have := mapLookup_none_of_keysGE hk.1 h3
    simp [cancelTask, this]

/-- A concrete scheduler with two pending tasks, used to witness C6. -/
def c6Sched : Sched :=
  (scheduleTask STask.flushHook (scheduleTask STask.baseUpdateUI {}).2).2

/-- C6 witness: the theorem applied at a concrete scheduler state (task
id 1 sits at queue index 0, the machine's id counter is past id 1). -/
theorem c6_cancellation_witness :
    (cancelTask 1 c6Sched).1 = true
      ∧ (cancelTask 1 c6Sched).2.taskQueue
          = [STask.noop, STask.flushHook]
      ∧ cancelTask 1 (processTaskQueue counterRender newHookComponent).sched
          = (false, (processTaskQueue counterRender newHookComponent).sched) := by
  have h := c6_cancellation c6Sched 1 0 counterRender newHookComponent rfl
    (by decide) (by decide)
  exact ⟨h.1, h.2.1, h.2.2.2.2.2⟩

/-! ## Claim C9: useMemo recomputes exactly when deps change -/

/-- The deps-changed test of useMemo: no previous deps, differing
length, or some new dep not identity-equal to the old dep at the same
index (deps.some((dep, i) => dep !== oldDeps[i])). -/
def depsChangedB (oldDeps : Option (List HVal)) (deps : List HVal) : Bool :=
  match oldDeps with
  | none => true
  | some od =>
      od.length != deps.length
        || (List.range deps.length).any fun i =>
            !identEqH (deps.getD i HVal.undef) (od.getD i HVal.undef)

/-- useMemo: consume the next hook index; on first encounter invoke the
factory and cache value and deps; afterwards recompute and re-cache
exactly when the deps-changed test fires, otherwise return the cached
value without touching the factory.  The factory is a Lean function
paired with an id recorded in factoryCalls whenever it is invoked. -/
def useMemo (factoryId : Nat) (factory : Unit → HVal) (deps : List HVal)
    (c : Comp) : HVal × Comp :=
  let index := c.hookIndex
  let c := { c with hookIndex := index + 1 }
  if index ≥ c.hookStates.length then
    let value := factory ()
    (value,
      { c with
          hookStates := c.hookStates ++ [Slot.memo value (some deps)]
          factoryCalls := c.factoryCalls ++ [factoryId] })
  else
    let memo := c.hookStates.getD index (Slot.state HVal.undef)
    if depsChangedB (slotDeps memo) deps then
      let value := factory ()
      (value,
        { c with
            hookStates := c.hookStates.set index (Slot.memo value (some deps))
            factoryCalls := c.factoryCalls ++ [factoryId] })
    else
      (slotMemoValue memo, c)

/-- The deps-changed test is false exactly when the two arrays have the
same length and pairwise identity-equal elements. -/
theorem depsChangedB_eq_false_iff (od deps : List HVal) :
    depsChangedB (some od) deps = false
      ↔ (od.length = deps.length
          ∧ ∀ i, i < deps.length →
              identEqH (deps.getD i HVal.undef) (od.getD i HVal.undef) = true) := by
  simp only [depsChangedB, Bool.or_eq_false_iff, bne_eq_false_iff_eq,
    List.any_eq_false, List.mem_range, Bool.not_eq_true']
  constructor
  · rintro ⟨h1, h2⟩
    exact ⟨h1, fun i hi => by simpa using h2 i hi⟩
  · rintro ⟨h1, h2⟩
    exact ⟨h1, fun i hi => by simpa using h2 i hi⟩

/-- C9: for a hook slot already holding a memo, a call whose deps have
the same length and pairwise identity-equal elements as the cached deps
returns the cached value, leaves the slot alone and does not invoke the
factory; a call whose deps differ in length or in some element invokes
the factory, returns its value and caches value and deps. -/
theorem c9_usememo (c : Comp) (fid : Nat) (f : Unit → HVal)
    (deps oldDeps : List HVal) (v : HVal)
    (hslot : c.hookStates.get? c.hookIndex = some (Slot.memo v (some oldDeps))) :
    ((oldDeps.length = deps.length
        ∧ ∀ i, i < deps.length →
            identEqH (deps.getD i HVal.undef) (oldDeps.getD i HVal.undef) = true) →
      useMemo fid f deps c = (v, { c with hookIndex := c.hookIndex + 1 }))
      ∧ ((oldDeps.length ≠ deps.length
          ∨ ∃ i, i < deps.length
              ∧ identEqH (deps.getD i HVal.undef) (oldDeps.getD i HVal.undef) = false) →
        useMemo fid f deps c
          = (f (),
              { c with
                  hookIndex := c.hookIndex + 1
                  hookStates :=
                    c.hookStates.set c.hookIndex (Slot.memo (f ()) (some deps))
                  factoryCalls := c.factoryCalls ++ [fid] })) := by
  have hlt : c.hookIndex < c.hookStates.length := by
    cases h : c.hookStates.get? c.hookIndex with
    | none => rw [h] at hslot; exact absurd hslot (by simp)
    | some s => exact (List.get?_eq_some.1 h).1
  have hnot : ¬ c.hookIndex ≥ c.hookStates.length := Nat.not_le.2 hlt
  have hgd : c.hookStates.getD c.hookIndex (Slot.state HVal.undef)
      = Slot.memo v (some oldDeps) := by
    simp [List.getD_eq_getElem?_getD, ← List.get?_eq_getElem?, hslot]
  have hgd2 : c.hookStates[c.hookIndex]?.getD (Slot.state HVal.undef)
      = Slot.memo v (some oldDeps) := by
    rw [← List.getD_eq_getElem?_getD]; exact hgd
  constructor
  · intro hsame
    have hchg : depsChangedB (some oldDeps) deps = false :=
      (depsChangedB_eq_false_iff oldDeps deps).2 hsame
    simp [useMemo, hnot, hgd2, slotDeps, hchg, slotMemoValue]
  · intro hdiff
    have hchg : depsChangedB (some oldDeps) deps = true := by
      rcases Bool.eq_false_or_eq_true (depsChangedB (some oldDeps) deps) with h | h
      · exact h
      · exfalso
        obtain ⟨h1, h2⟩ := (depsChangedB_eq_false_iff oldDeps deps).1 h
        rcases hdiff with hd | ⟨i, hi, hne⟩
        · exact hd h1
        · rw [h2 i hi] at hne; exact absurd hne (by simp)
    simp [useMemo, hnot, hgd2, slotDeps, hchg]

/-- C9 witness: a component whose slot 0 caches value 42 under deps
consisting of the function with identity 9.  Calling useMemo with the
same singleton deps returns the cache without a factory call; calling
it with a different function identity invokes the factory. -/
def c9Comp : Comp := { hookStates := [Slot.memo (HVal.num 42) (some [HVal.fnv 9])] }

theorem c9_usememo_witness :
    useMemo 1 (fun _ => HVal.num 7) [HVal.fnv 9] c9Comp
        = (HVal.num 42, { c9Comp with hookIndex := 1 })
      ∧ useMemo 1 (fun _ => HVal.num 7) [HVal.fnv 8] c9Comp
          = (HVal.num 7,
              { c9Comp with
                  hookIndex := 1
                  hookStates := [Slot.memo (HVal.num 7) (some [HVal.fnv 8])]
                  factoryCalls := [1] }) := by
  constructor
  · exact (c9_usememo c9Comp 1 (fun _ => HVal.num 7) [HVal.fnv 9] [HVal.fnv 9]
      (HVal.num 42) rfl).1 (by constructor <;> decide)
  · exact (c9_usememo c9Comp 1 (fun _ => HVal.num 7) [HVal.fnv 8] [HVal.fnv 9]
      (HVal.num 42) rfl).2 (Or.inr ⟨0, by decide, by decide⟩)

/-! ## Claim C10: writing an unchanged context value -/

/-- A context (hooks.ts TContext): current value plus the set of
subscriber callbacks, modelled by their identities in insertion
order. -/
structure Ctx where
  value : HVal
  subscribers : List Nat

/-- setContextValue: bail out when the new value is identity-equal to
the current one; otherwise store it and notify a snapshot of the
subscribers in order.  The result pairs the updated context with the
list of notifications (subscriber id, delivered value).  The source's
catch branch (dropping a subscriber whose callback throws) cannot fire
here because modelled callbacks do not throw. -/
def setContextValue (c : Ctx) (newValue : HVal) : Ctx × List (Nat × HVal) :=
  if identEqH c.value newValue then (c, [])
  else
    ({ c with value := newValue },
      c.subscribers.map (fun s => (s, newValue)))

/-- C10: writing a value identity-equal to the current one leaves the
context (value and subscriber set) unchanged and notifies nobody; only
a write of a different value stores it and notifies every subscriber
with the new value. -/
theorem c10_context_noop (c : Ctx) (v : HVal) :
    (identEqH c.value v = true → setContextValue c v = (c, []))
      ∧ (identEqH c.value v = false →
        (setContextValue c v).1.value = v
          ∧ (setContextValue c v).1.subscribers = c.subscribers
          ∧ (setContextValue c v).2 = c.subscribers.map (fun s => (s, v))) := by
  constructor
  · intro h; simp [setContextValue, h]
  · intro h; simp [setContextValue, h]

/-- C10 witness: a context holding 5 with two subscribers; writing 5
again changes nothing and notifies nobody, writing 6 notifies both. -/
theorem c10_context_noop_witness :
    setContextValue ⟨HVal.num 5, [3, 4]⟩ (HVal.num 5) = (⟨HVal.num 5, [3, 4]⟩, [])
      ∧ (setContextValue ⟨HVal.num 5, [3, 4]⟩ (HVal.num 6)).2
          = [(3, HVal.num 6), (4, HVal.num 6)] := by
  constructor
  · exact (c10_context_noop ⟨HVal.num 5, [3, 4]⟩ (HVal.num 5)).1 (by decide)
  · exact ((c10_context_noop ⟨HVal.num 5, [3, 4]⟩ (HVal.num 6)).2 (by decide)).2.2

/-! ## Claim C8: prop-diff short circuit (component.ts, shallowEqual) -/

/-- shallowEqual: identical references compare equal at once; otherwise
compare key counts, then every key of A must exist in B with a
strictly-equal value.  The typeof-object/null early exit of the source
cannot fire here because props records are always objects. -/
def shallowEqual (objA objB : Props) : Bool :=
  if objA == objB then true
  else
    let keysA := objA.map (·.1)
    let keysB := objB.map (·.1)
    if keysA.length != keysB.length then false
    else
      keysA.all fun key =>
        hasOwnProp key objB && identEqOpt (propsLookup key objA) (propsLookup key objB)

/-- Component.shouldComponentUpdate, default implementation (subclasses
may override this hook): update exactly when the shallow comparison
fails. -/
def shouldComponentUpdate (c : Comp) (newProps : Props) : Bool :=
  !shallowEqual c.props newProps

namespace Component

/-- Component.updateProps: consult shouldComponentUpdate; when props
changed, store a copy of the new props, mark the component dirty and
schedule a re-render; otherwise do nothing at all. -/
def updateProps (newProps : Props) (m : Machine) : Machine :=
  if shouldComponentUpdate m.comp newProps then
    scheduleUpdate
      { m with comp := { m.comp with props := newProps, shouldUpdate := true } }
  else m

end Component

theorem identEqOpt_refl (o : Option PValue) : identEqOpt o o = true := by
  cases o with
  | none => rfl
  | some v => simpa [identEqOpt] using identEqP_refl v

theorem propsLookup_isSome_iff (k : String) (p : Props) :
    (propsLookup k p).isSome = true ↔ k ∈ p.map (·.1) := by
  constructor
  · intro h
    cases hf : p.find? (fun e => e.1 == k) with
    | none => rw [propsLookup, hf] at h; exact absurd h (by simp)
    | some e =>
        have hpe := List.find?_some hf
        have hmem := List.mem_of_find?_eq_some hf
        exact List.mem_map.2 ⟨e, hmem, by simpa using hpe⟩
  · intro h
    obtain ⟨e, he, hk⟩ := List.mem_map.1 h
    rw [propsLookup]
    cases hf : p.find? (fun x => x.1 == k) with
    | some e2 => simp
    | none =>
        have := List.find?_eq_none.1 hf e he
        rw [hk] at this
        exact absurd (by simp) this

theorem propsLookup_eq_none (k : String) (p : Props) (h : k ∉ p.map (·.1)) :
    propsLookup k p = none := by
  cases hl : propsLookup k p with
  | none => rfl
  | some v =>
      exact absurd ((propsLookup_isSome_iff k p).1 (by simp [hl])) h

/-- shallowEqual agrees with the specification's notion of shallow
key/value equality: same key set, strictly-equal value at every key. -/
theorem shallowEqual_iff (a b : Props) (ha : NoDupKeys a) (hb : NoDupKeys b) :
    shallowEqual a b = true
      ↔ ∀ k, identEqOpt (propsLookup k a) (propsLookup k b) = true := by
  by_cases hab : a == b
  · have hab2 : a = b := by simpa using hab
    subst hab2
    have hsa : shallowEqual a a = true := by simp [shallowEqual]
    exact ⟨fun _ k => identEqOpt_refl _, fun _ => hsa⟩
  · simp only [shallowEqual, if_neg hab]
    constructor
    · intro h k
      by_cases hlen : ((a.map (·.1)).length != (b.map (·.1)).length) = true
      · rw [if_pos hlen] at h; exact absurd h (by simp)
      · rw [if_neg hlen] at h
        have hlen2 : (a.map (·.1)).length = (b.map (·.1)).length := by
          simpa using hlen
        rw [List.all_eq_true] at h
        by_cases hk : k ∈ a.map (·.1)
        · have hx2 := h k hk
          rw [Bool.and_eq_true] at hx2
          exact hx2.2
        · have hsub : ∀ x ∈ a.map (·.1), x ∈ b.map (·.1) := by
            intro x hx
            have hx2 := h x hx
            rw [Bool.and_eq_true] at hx2
            exact (propsLookup_isSome_iff x b).1 hx2.1
          have hfs : (a.map (·.1)).toFinset = (b.map (·.1)).toFinset := by
            apply Finset.eq_of_subset_of_card_le
            · intro x hx
              rw [List.mem_toFinset] at hx ⊢
              exact hsub x hx
            · rw [List.toFinset_card_of_nodup ha, List.toFinset_card_of_nodup hb]
              omega
          have hkb : k ∉ b.map (·.1) := by
            intro hkb
            apply hk
            have hmem : k ∈ (b.map (·.1)).toFinset := List.mem_toFinset.2 hkb
            rw [← hfs] at hmem
            exact List.mem_toFinset.1 hmem
          rw [propsLookup_eq_none k a hk, propsLookup_eq_none k b hkb]
          rfl
    · intro h
      have hsubA : ∀ x ∈ a.map (·.1), x ∈ b.map (·.1) := by
        intro x hx
        have hsa : (propsLookup x a).isSome = true := (propsLookup_isSome_iff x a).2 hx
        have hxv := h x
        cases hla : propsLookup x a with
        | none => rw [hla] at hsa; exact absurd hsa (by simp)
        | some va =>
            cases hlb : propsLookup x b with
            | none =>
                rw [hla, hlb] at hxv
                exact absurd hxv (by simp [identEqOpt])
            | some vb =>
                exact (propsLookup_isSome_iff x b).1 (by simp [hlb])
      have hsubB : ∀ x ∈ b.map (·.1), x ∈ a.map (·.1) := by
        intro x hx
        have hsb : (propsLookup x b).isSome = true := (propsLookup_isSome_iff x b).2 hx
        have hxv := h x
        cases hlb : propsLookup x b with
        | none => rw [hlb] at hsb; exact absurd hsb (by simp)
        | some vb =>
            cases hla : propsLookup x a with
            | none =>
                rw [hla, hlb] at hxv
                exact absurd hxv (by simp [identEqOpt])
            | some va =>
                exact (propsLookup_isSome_iff x a).1 (by simp [hla])
      have hfs : (a.map (·.1)).toFinset = (b.map (·.1)).toFinset := by
        apply Finset.Subset.antisymm
        · intro x hx
          rw [List.mem_toFinset] at hx ⊢
          exact hsubA x hx
        · intro x hx
          rw [List.mem_toFinset] at hx ⊢
          exact hsubB x hx
      have hlen : (a.map (·.1)).length = (b.map (·.1)).length := by
        rw [← List.toFinset_card_of_nodup ha, ← List.toFinset_card_of_nodup hb, hfs]
      rw [if_neg (by simpa using hlen)]
      rw [List.all_eq_true]
      intro x hx
      rw [Bool.and_eq_true]
      refine ⟨?_, h x⟩
      unfold hasOwnProp
      exact (propsLookup_isSome_iff x b).2 (hsubA x hx)

/-- C8: updateProps compares stored against new props with
shallowEqual (through the overridable shouldComponentUpdate hook) and
schedules a re-render if and only if they differ; on shallow-equal
props nothing changes and nothing is scheduled; and shallowEqual is
exactly shallow key/value equality. -/
theorem c8_prop_diff_short_circuit (m : Machine) (p : Props) :
    (shallowEqual m.comp.props p = true → Component.updateProps p m = m)
      ∧ (shallowEqual m.comp.props p = false →
        (Component.updateProps p m).comp.props = p
          ∧ (Component.updateProps p m).comp.shouldUpdate = true
          ∧ (Component.updateProps p m).comp.updateScheduled.isSome = true
          ∧ (Component.updateProps p m).comp.renderedOutput = m.comp.renderedOutput)
      ∧ (NoDupKeys m.comp.props → NoDupKeys p →
        (shallowEqual m.comp.props p = true
          ↔ ∀ k, identEqOpt (propsLookup k m.comp.props) (propsLookup k p) = true)) := by
  refine ⟨?_, ?_, fun ha hb => shallowEqual_iff _ _ ha hb⟩
  · intro h
    simp [Component.updateProps, shouldComponentUpdate, h]
  · intro h
    simp only [Component.updateProps, shouldComponentUpdate, h, Bool.not_false, if_pos]
    unfold scheduleUpdate
    cases hs : ({ m with comp := { m.comp with props := p, shouldUpdate := true } } :
        Machine).comp.updateScheduled with
    | some k => simp_all
    | none => simp_all [scheduleTask]

/-- C8 witness: with stored props consisting of one entry a ↦ "1",
updating with an equal record changes nothing; updating with a ↦ "2"
stores the new props and schedules a re-render. -/
def c8Machine : Machine :=
  { comp := { props := [("a", PValue.str "1")] }, sched := {} }

theorem c8_prop_diff_witness :
    Component.updateProps [("a", PValue.str "1")] c8Machine = c8Machine
      ∧ (Component.updateProps [("a", PValue.str "2")] c8Machine).comp.props
          = [("a", PValue.str "2")]
      ∧ (Component.updateProps [("a", PValue.str "2")]
          c8Machine).comp.updateScheduled.isSome = true
      ∧ (shallowEqual c8Machine.comp.props [("a", PValue.str "1")] = true
          ↔ ∀ k, identEqOpt (propsLookup k c8Machine.comp.props)
              (propsLookup k [("a", PValue.str "1")]) = true) := by
  refine ⟨(c8_prop_diff_short_circuit c8Machine [("a", PValue.str "1")]).1 (by decide),
          ((c8_prop_diff_short_circuit c8Machine [("a", PValue.str "2")]).2.1 (by decide)).1,
          ((c8_prop_diff_short_circuit c8Machine
              [("a", PValue.str "2")]).2.1 (by decide)).2.2.1,
          (c8_prop_diff_short_circuit c8Machine [("a", PValue.str "1")]).2.2
            (by simp [NoDupKeys, c8Machine]) (by simp [NoDupKeys])⟩

/-! ## Virtual DOM (vdom.ts, second revision)

The virtual node type mirrors the tagged union VNodeText /
VNodeElement / VNodeComponent.  The el field is the transient binding
to the realized platform node (a numeric node id into the DOM store).
Component instances are referenced by a numeric id; their root elements
live in a registry carried by the patch state. -/

/-- A child key as used by the keyed reconciliation Map: JavaScript
string or number keys. -/
inductive JKey where
  | kstr (s : String)
  | knum (n : Int)
deriving DecidableEq, Repr

inductive VNode where
  | text (text : String) (el : Option Nat)
  | elem (tagName : String) (props : Props) (children : List VNode)
      (key : Option JKey) (el : Option Nat)
  | comp (compId : Nat) (props : Props) (componentKey : Option String)
      (el : Option Nat)

/-- The binding of a virtual node to its realized node (vnode.el). -/
def vnodeEl : VNode → Option Nat
  | .text _ e => e
  | .elem _ _ _ _ e => e
  | .comp _ _ _ e => e

/-- The type tag of a virtual node (vnode.type). -/
def vnodeTypeTag : VNode → Nat
  | .text _ _ => 0
  | .elem _ _ _ _ _ => 1
  | .comp _ _ _ _ => 2

/-! ### The realized DOM, an external collaborator

A store of numbered nodes.  Every mutating DOM call the reconciler
makes is recorded in a trace and applied to the store. -/

/-- One realized platform node: tag is none for text nodes. -/
structure RNode where
  tag : Option String := none
  text : String := ""
  attrs : List (String × String) := []
  styles : List (String × String) := []
  listeners : List (String × Nat) := []
  children : List Nat := []
deriving DecidableEq, Repr

structure Dom where
  nodes : List (Nat × RNode) := []
  nextId : Nat := 1
deriving DecidableEq, Repr

/-- One mutating DOM call. -/
inductive DomOp where
  | setAttr (el : Nat) (name val : String)
  | removeAttr (el : Nat) (name : String)
  | setStyle (el : Nat) (name val : String)
  | setText (el : Nat) (s : String)
  | addListener (el : Nat) (ev : String) (h : Nat)
  | removeListener (el : Nat) (ev : String) (h : Nat)
  | createNode (id : Nat)
  | appendChild (parent child : Nat)
  | insertBefore (parent child : Nat) (ref : Option Nat)
  | removeChild (parent child : Nat)
  | replaceChild (parent newChild oldChild : Nat)
deriving DecidableEq, Repr

def domGet (d : Dom) (i : Nat) : Option RNode :=
  (d.nodes.find? (fun p => p.1 == i)).map (·.2)

def domSetNode (d : Dom) (i : Nat) (n : RNode) : Dom :=
  { d with nodes := d.nodes.map (fun p => if p.1 == i then (p.1, n) else p) }

def updateNode (d : Dom) (i : Nat) (f : RNode → RNode) : Dom :=
  match domGet d i with
  | some n => domSetNode d i (f n)
  | none => d

/-- Insert c before the first occurrence of r (append when r is
absent; the DOM would reject an absent reference node, a case the
reconciler never produces). -/
def insertBeforeList (c : Nat) (r : Nat) : List Nat → List Nat
  | [] => [c]
  | x :: xs => if x == r then c :: x :: xs else x :: insertBeforeList c r xs

def assocSetS (l : List (String × String)) (k v : String) : List (String × String) :=
  if (l.find? (fun p => p.1 == k)).isSome then
    l.map (fun p => if p.1 == k then (p.1, v) else p)
  else l ++ [(k, v)]

/-- Apply one DOM call to the store.  insertBefore and appendChild
first detach the child from the target parent (the reconciler only
moves nodes within one parent). -/
def applyOp (d : Dom) : DomOp → Dom
  | .setAttr el k v => updateNode d el (fun n => { n with attrs := assocSetS n.attrs k v })
  | .removeAttr el k => updateNode d el (fun n => { n with attrs := n.attrs.filter (fun p => p.1 ≠ k) })
  | .setStyle el k v => updateNode d el (fun n => { n with styles := assocSetS n.styles k v })
  | .setText el s => updateNode d el (fun n => { n with text := s })
  | .addListener el ev h => updateNode d el (fun n => { n with listeners := n.listeners ++ [(ev, h)] })
  | .removeListener el ev h => updateNode d el (fun n => { n with listeners := n.listeners.erase (ev, h) })
  | .createNode _ => d
  | .appendChild p c => updateNode d p (fun n => { n with children := n.children.erase c ++ [c] })
  | .insertBefore p c r =>
      updateNode d p (fun n =>
        { n with children :=
            match r with
            | none => n.children.erase c ++ [c]
            | some ref => insertBeforeList c ref (n.children.erase c) })
  | .removeChild p c => updateNode d p (fun n => { n with children := n.children.erase c })
  | .replaceChild p newC oldC =>
      updateNode d p (fun n =>
        { n with children := n.children.map (fun x => if x == oldC then newC else x) })

/-- A call made into a component instance during patching. -/
inductive CompCall where
  | updateProps (comp : Nat) (props : Props)
  | update (comp : Nat)

/-- State threaded through the reconciler: the DOM store, the trace of
mutating DOM calls, the calls made into component instances, and the
registry mapping component ids to their existing root elements
(component.getElement()). -/
structure PatchSt where
  dom : Dom
  trace : List DomOp := []
  calls : List CompCall := []
  compEls : List (Nat × Nat) := []

/-- Perform one DOM call: apply it to the store and record it. -/
def emit (op : DomOp) (st : PatchSt) : PatchSt :=
  { st with dom := applyOp st.dom op, trace := st.trace ++ [op] }

/-- Character-list test that pre begins cs (String.startsWith does not
reduce inside the kernel, so the string functions the reconciler needs
are implemented over the character lists). -/
def charsBegin : List Char → List Char → Bool
  | [], _ => true
  | _ :: _, [] => false
  | p :: ps, c :: cs => p == c && charsBegin ps cs

/-- key.startsWith(pre). -/
def strStarts (s pre : String) : Bool := charsBegin pre.data s.data

/-- ASCII lower-casing of one character. -/
def lowerChar (c : Char) : Char :=
  if 65 ≤ c.toNat ∧ c.toNat ≤ 90 then Char.ofNat (c.toNat + 32) else c

/-- key.toLowerCase().substring(2): the event type of an on*-prop. -/
def eventTypeOf (k : String) : String := String.mk ((k.data.map lowerChar).drop 2)

/-- The implicit string conversion JavaScript applies inside
setAttribute (value.toString()); functions never reach these paths
because on*-keys are filtered first. -/
def pvToString : PValue → String
  | .str s => s
  | .num n => toString n
  | .boolean b => cond b "true" "false"
  | .fn _ => "function"
  | .objv _ _ => "[object Object]"
  | .nullv => "null"

/-- typeof value === 'object' for prop values (the typeof-null corner
never reaches the style branches in this code base and is not
modelled). -/
def isObjectP : PValue → Bool
  | .objv _ _ => true
  | _ => false

def styleFields : PValue → List (String × String)
  | .objv _ fields => fields
  | _ => []

/-- JavaScript truthiness of a prop value. -/
def isTruthyP : PValue → Bool
  | .str s => s ≠ ""
  | .num n => n ≠ 0
  | .boolean b => b
  | .fn _ => true
  | .objv _ _ => true
  | .nullv => false

def assocLookupS (l : List (String × String)) (k : String) : Option String :=
  (l.find? (fun p => p.1 == k)).map (·.2)

/-- setProps (realization path): set attributes, styles, class and
data attributes on a fresh element, skipping on*-keys and key. -/
def setProps (el : Nat) (props : Props) (st : PatchSt) : PatchSt :=
  props.foldl
    (fun st kv =>
      let key := kv.1
      let value := kv.2
      if strStarts key "on" || key == "key" then st
      else if key == "style" && isObjectP value then
        (styleFields value).foldl (fun st cs => emit (.setStyle el cs.1 cs.2) st) st
      else if key == "className" then emit (.setAttr el "class" (pvToString value)) st
      else if strStarts key "data-" then emit (.setAttr el key (pvToString value)) st
      else
        match value with
        | .boolean b => if b then emit (.setAttr el key "") st else st
        | .nullv => st
        | v => emit (.setAttr el key (pvToString v)) st)
    st

/-- addEventListeners (realization path). -/
def addEventListeners (el : Nat) (props : Props) (st : PatchSt) : PatchSt :=
  props.foldl
    (fun st kv =>
      match kv.2 with
      | .fn f =>
          if strStarts kv.1 "on" then emit (.addListener el (eventTypeOf kv.1) f) st
          else st
      | _ => st)
    st

/-- updateProps (vdom.ts), first pass over the old props: detach
listeners whose handler vanished or changed; remove attributes no
longer present. -/
def removeOldPass (el : Nat) (oldProps newProps : Props) (st : PatchSt) : PatchSt :=
  oldProps.foldl
    (fun st kv =>
      let key := kv.1
      let value := kv.2
      if strStarts key "on" then
        if !hasOwnProp key newProps
            || !identEqOpt (propsLookup key newProps) (some value) then
          match value with
          | .fn f => emit (.removeListener el (eventTypeOf key) f) st
          | _ => st
        else st
      else if !hasOwnProp key newProps then
        if key == "className" then emit (.removeAttr el "class") st
        else if key == "style" then emit (.removeAttr el "style") st
        else emit (.removeAttr el key) st
      else st)
    st

/-- updateProps, second pass over the new props: set changed values,
diffing style objects per property; booleans toggle presence; null
removes. -/
def setNewPass (el : Nat) (oldProps newProps : Props) (st : PatchSt) : PatchSt :=
  newProps.foldl
    (fun st kv =>
      let key := kv.1
      let value := kv.2
      if strStarts key "on" then st
      else if identEqOpt (propsLookup key oldProps) (some value) then st
      else if key == "style" && isObjectP value then
        match propsLookup "style" oldProps with
        | some (PValue.objv _ oldFields) =>
            let st := (styleFields value).foldl
              (fun st cs =>
                if assocLookupS oldFields cs.1 == some cs.2 then st
                else emit (.setStyle el cs.1 cs.2) st)
              st
            oldFields.foldl
              (fun st cs =>
                if (assocLookupS (styleFields value) cs.1).isSome then st
                else emit (.setStyle el cs.1 "") st)
              st
        | _ =>
            (styleFields value).foldl (fun st cs => emit (.setStyle el cs.1 cs.2) st) st
      else if key == "className" then emit (.setAttr el "class" (pvToString value)) st
      else if strStarts key "data-" then emit (.setAttr el key (pvToString value)) st
      else
        match value with
        | .boolean b =>
            if b then emit (.setAttr el key "") st else emit (.removeAttr el key) st
        | .nullv => emit (.removeAttr el key) st
        | v => emit (.setAttr el key (pvToString v)) st)
    st

/-- updateProps, third pass over the new props: attach changed event
handlers, detaching the truthy previous one first. -/
def addListenerPass (el : Nat) (oldProps newProps : Props) (st : PatchSt) : PatchSt :=
  newProps.foldl
    (fun st kv =>
      let key := kv.1
      match kv.2 with
      | .fn f =>
          if strStarts key "on" then
            if identEqOpt (propsLookup key oldProps) (some (PValue.fn f)) then st
            else
              let st :=
                match propsLookup key oldProps with
                | some old =>
                    if isTruthyP old then
                      match old with
                      | .fn g => emit (.removeListener el (eventTypeOf key) g) st
                      | _ => st
                    else st
                | none => st
              emit (.addListener el (eventTypeOf key) f) st
          else st
      | _ => st)
    st

/-- updateProps (vdom.ts): the three passes in source order. -/
def updateProps (el : Nat) (oldProps newProps : Props) (st : PatchSt) : PatchSt :=
  addListenerPass el oldProps newProps
    (setNewPass el oldProps newProps (removeOldPass el oldProps newProps st))

/-- The reconciliation key of a child (getVNodeKey): the explicit
element key when present, a truthy componentKey, or the positional
fallback key. -/
def getVNodeKey (v : VNode) (index : Nat) : JKey :=
  match v with
  | .elem _ _ _ (some k) _ => k
  | .comp _ _ (some ck) _ =>
      if ck ≠ "" then JKey.kstr ck
      else JKey.kstr ("position-" ++ toString index)
  | _ => JKey.kstr ("position-" ++ toString index)

/-- The component registry lookup (instance.getElement()). -/
def compElLookup (st : PatchSt) (cid : Nat) : Nat :=
  ((st.compEls.find? (fun p => p.1 == cid)).map (·.2)).getD 0

/-- Allocate a fresh realized node (document.createTextNode /
createElement / createDocumentFragment); recorded in the trace. -/
def allocNode (n : RNode) (st : PatchSt) : Nat × PatchSt :=
  let id := st.dom.nextId
  (id,
    { st with
        dom := { nodes := st.dom.nodes ++ [(id, n)], nextId := id + 1 }
        trace := st.trace ++ [DomOp.createNode id] })

/-- oldVNode.el.parentNode: the node whose child list contains c. -/
def domParentOf (d : Dom) (c : Nat) : Option Nat :=
  (d.nodes.find? (fun p => c ∈ p.2.children)).map (·.1)

/-- Element-tag mismatch test of patch (fragments are exempt and match
any element tag). -/
def tagMismatch : VNode → VNode → Bool
  | .elem ot _ _ _ _, .elem nt _ _ _ _ =>
      ot != nt && ot != "fragment" && nt != "fragment"
  | _, _ => false

/-- The reconciliation key index of the old children (the indexing for
loop of patchChildren; Map.set overwrites on duplicate keys). -/
def buildOldKeyMapAux : List VNode → Nat → List (JKey × Nat × VNode) →
    List (JKey × Nat × VNode)
  | [], _, acc => acc
  | c :: rest, i, acc =>
      let key := getVNodeKey c i
      let acc :=
        if (acc.find? (fun e => e.1 == key)).isSome then
          acc.map (fun e => if e.1 == key then (key, i, c) else e)
        else acc ++ [(key, i, c)]
      buildOldKeyMapAux rest (i + 1) acc

def buildOldKeyMap (cs : List VNode) : List (JKey × Nat × VNode) :=
  buildOldKeyMapAux cs 0 []

def keyMapFind (m : List (JKey × Nat × VNode)) (k : JKey) : Option (Nat × VNode) :=
  (m.find? (fun e => e.1 == k)).map (·.2)

/-- The look-ahead of the insertion branch: the first following new
child whose key exists in the old map and whose el is truthy. -/
def lookaheadRef (m : List (JKey × Nat × VNode)) : List VNode → Nat → Option (Option Nat)
  | [], _ => none
  | c :: rest, j =>
      if (keyMapFind m (getVNodeKey c j)).isSome && (vnodeEl c).isSome then
        some (vnodeEl c)
      else lookaheadRef m rest (j + 1)

/-- The removal pass of patchChildren: old children whose keys were
never matched are removed (when they carry a binding). -/
def removeUnused (parentEl : Nat) (used : List JKey) :
    List VNode → Nat → PatchSt → PatchSt
  | [], _, st => st
  | c :: rest, i, st =>
      let st :=
        if getVNodeKey c i ∈ used then st
        else
          match vnodeEl c with
          | some e => emit (.removeChild parentEl e) st
          | none => st
      removeUnused parentEl used rest (i + 1) st

/-! ### The reconciler as one structurally-recursive interpreter

The source functions createRealNode, patch and patchChildren (with its
per-child loop) are mutually recursive.  To keep every term computable
by the kernel they are compiled here into a single interpreter over a
call type, structurally recursive on fuel; the wrappers below restore
the source names and signatures.  none models fuel exhaustion only. -/

/-- A pending call of the reconciler. -/
inductive PCall where
  | createC (v : VNode)
  | createListC (parentId : Nat) (cs : List VNode)
  | patchC (oldV newV : Option VNode) (parentEl : Nat)
  | replaceC (ov nv : VNode)
  | childrenC (oldCs newCs : List VNode) (parentEl : Nat)
  | loopC (oldMap : List (JKey × Nat × VNode)) (parentEl : Nat) (rest : List VNode)
      (i : Nat) (lastIndex : Int) (moves : List (Nat × Option Nat)) (used : List JKey)

/-- The result of a reconciler call: el carries the binding returned by
patch (and the id of a node realized by createRealNode); moves and used
are the loop's accumulators. -/
structure PRes where
  el : Option Nat := none
  moves : List (Nat × Option Nat) := []
  used : List JKey := []

def patchRun : Nat → PCall → PatchSt → Option (PRes × PatchSt)
  | 0, _, _ => none
  | fuel + 1, call, st =>
    match call with
    | .createC v =>
        -- createRealNode: realize a virtual node.  Text nodes allocate a
        -- text node; component nodes reuse the instance's existing root
        -- element and call instance.update(); element nodes allocate (a
        -- fragment for the fragment tag, otherwise an element receiving
        -- props and listeners) and realize and append the children.
        match v with
        | .text s _ =>
            let (id, st) := allocNode { text := s } st
            some ({ el := some id }, st)
        | .comp cid _ _ _ =>
            let el := compElLookup st cid
            some ({ el := some el },
              { st with calls := st.calls ++ [CompCall.update cid] })
        | .elem tag props children _ _ =>
            let (id, st) :=
              if tag == "fragment" then allocNode { tag := some "fragment" } st
              else
                let (id, st) := allocNode { tag := some tag } st
                let st := setProps id props st
                let st := addEventListeners id props st
                (id, st)
            (do
              let (_, st) ← patchRun fuel (.createListC id children) st
              some ({ el := some id }, st))
    | .createListC parentId cs =>
        -- the child loop of createRealNode: realize and append in order
        match cs with
        | [] => some ({}, st)
        | c :: rest => do
            let (r, st) ← patchRun fuel (.createC c) st
            match r.el with
            | some cid =>
                patchRun fuel (.createListC parentId rest)
                  (emit (.appendChild parentId cid) st)
            | none => none
    | .patchC oldV newV parentEl =>
        -- patch: diff and patch two virtual nodes, returning the binding
        match oldV with
        | none =>
            match newV with
            | some nv => do
                let (r, st) ← patchRun fuel (.createC nv) st
                match r.el with
                | some id => some ({ el := some id }, emit (.appendChild parentEl id) st)
                | none => none
            | none => some ({}, st)
        | some ov =>
            match newV with
            | none =>
                let st :=
                  match vnodeEl ov with
                  | some e => emit (.removeChild parentEl e) st
                  | none => st
                some ({}, st)
            | some nv =>
                if vnodeTypeTag ov != vnodeTypeTag nv then
                  patchRun fuel (.replaceC ov nv) st
                else if tagMismatch ov nv then
                  patchRun fuel (.replaceC ov nv) st
                else
                  match ov, nv with
                  | .comp _ _ ock _, .comp ncid nprops nck _ =>
                      if ock == nck then
                        some ({ el := vnodeEl ov },
                          { st with
                              calls := st.calls ++ [CompCall.updateProps ncid nprops] })
                      else patchRun fuel (.replaceC ov nv) st
                  | .text otxt _, .text ntxt _ =>
                      let st :=
                        if ntxt != otxt then
                          match vnodeEl ov with
                          | some e => emit (.setText e ntxt) st
                          | none => st
                        else st
                      some ({ el := vnodeEl ov }, st)
                  | .elem otag oprops ochildren _ (some e),
                    .elem ntag nprops nchildren _ _ =>
                      let st :=
                        if otag != "fragment" && ntag != "fragment" then
                          updateProps e oprops nprops st
                        else st
                      (do
                        let (_, st) ← patchRun fuel (.childrenC ochildren nchildren e) st
                        some ({ el := some e }, st))
                  | _, _ => some ({}, st)
    | .replaceC ov nv => do
        -- the full-replace path: realize the new node, then swap it in
        -- place of the old node's binding when that binding has a parent
        let (r, st) ← patchRun fuel (.createC nv) st
        match r.el with
        | some id =>
            let st :=
              match vnodeEl ov with
              | some oldE =>
                  match domParentOf st.dom oldE with
                  | some p => emit (.replaceChild p id oldE) st
                  | none => st
              | none => st
            some ({ el := some id }, st)
        | none => none
    | .childrenC oldCs newCs parentEl => do
        -- patchChildren: index the old children by key, run the loop,
        -- perform the queued moves, remove unmatched old children
        let oldMap := buildOldKeyMap oldCs
        let (r, st) ← patchRun fuel (.loopC oldMap parentEl newCs 0 0 [] []) st
        let st := r.moves.foldl (fun st mv => emit (.insertBefore parentEl mv.1 mv.2) st) st
        some ({}, removeUnused parentEl r.used oldCs 0 st)
    | .loopC oldMap parentEl rest0 i lastIndex moves used =>
        -- the per-new-child loop of patchChildren; oldIndex reproduces
        -- the source expression (map.get(key) || -1), which collapses a
        -- found index 0 to -1
        match rest0 with
        | [] => some ({ moves := moves, used := used }, st)
        | c :: rest =>
            match keyMapFind oldMap (getVNodeKey c i) with
            | some (oldIndex0, oldChild) => do
                let used := used ++ [getVNodeKey c i]
                let oldIndex : Int := if oldIndex0 == 0 then -1 else (oldIndex0 : Int)
                let (_, st) ← patchRun fuel (.patchC (some oldChild) (some c) parentEl) st
                if oldIndex < lastIndex then
                  let moves :=
                    match vnodeEl oldChild with
                    | some oe =>
                        let refNode :=
                          match rest.head? with
                          | some nxt => vnodeEl nxt
                          | none => none
                        moves ++ [(oe, refNode)]
                    | none => moves
                  patchRun fuel (.loopC oldMap parentEl rest (i + 1) lastIndex moves used) st
                else
                  patchRun fuel (.loopC oldMap parentEl rest (i + 1) oldIndex moves used) st
            | none => do
                let (r, st) ← patchRun fuel (.createC c) st
                match r.el with
                | some newNode =>
                    let st :=
                      match lookaheadRef oldMap rest (i + 1) with
                      | some rref => emit (.insertBefore parentEl newNode rref) st
                      | none =>
                          let refNode :=
                            (((domGet st.dom parentEl).map (fun n => n.children)).getD []).get? i
                          emit (.insertBefore parentEl newNode refNode) st
                    patchRun fuel (.loopC oldMap parentEl rest (i + 1) lastIndex moves used) st
                | none => none

/-- createRealNode, by its source name. -/
def createRealNode (fuel : Nat) (v : VNode) (st : PatchSt) : Option (Nat × PatchSt) :=
  (patchRun fuel (.createC v) st).bind fun rs => rs.1.el.map fun id => (id, rs.2)

/-- patch, by its source name: the binding (Node | null) plus state. -/
def patch (fuel : Nat) (oldV newV : Option VNode) (parentEl : Nat) (st : PatchSt) :
    Option (Option Nat × PatchSt) :=
  (patchRun fuel (.patchC oldV newV parentEl) st).map fun rs => (rs.1.el, rs.2)

/-- patchChildren, by its source name. -/
def patchChildren (fuel : Nat) (oldChildren newChildren : List VNode)
    (parentEl : Nat) (st : PatchSt) : Option PatchSt :=
  (patchRun fuel (.childrenC oldChildren newChildren parentEl) st).map (·.2)

/-! ## Claim C1: keyed child reconciliation reuses and reorders -/

/-- A keyed list item, as produced by createElement with a key prop. -/
def liNode (key : String) (el : Option Nat) : VNode :=
  VNode.elem "li" [("className", PValue.str "item")] [] (some (JKey.kstr key)) el

/-- The realized parent: ul node 1 inside root node 0, children A, B, C
realized as nodes 2, 3, 4. -/
def c1Dom : Dom :=
  { nodes :=
      [ (0, { tag := some "root", children := [1] })
      , (1, { tag := some "ul", children := [2, 3, 4] })
      , (2, { tag := some "li", attrs := [("class", "item")] })
      , (3, { tag := some "li", attrs := [("class", "item")] })
      , (4, { tag := some "li", attrs := [("class", "item")] }) ]
    nextId := 5 }

def c1Old : VNode :=
  VNode.elem "ul" []
    [liNode "a" (some 2), liNode "b" (some 3), liNode "c" (some 4)] none (some 1)

def c1New : VNode :=
  VNode.elem "ul" []
    [liNode "c" none, liNode "b" none, liNode "a" none] none none

def c1Result : Option (Option Nat × PatchSt) :=
  patch 30 (some c1Old) (some c1New) 0 { dom := c1Dom }

def isCreateOp : DomOp → Bool
  | .createNode _ => true
  | _ => false

set_option maxRecDepth 10000 in
/-- C1: patching the keyed children A, B, C (realized as nodes 2, 3, 4)
to the reversed list C, B, A patches all three in place — the trace
holds no node creation, insertion of a fresh node, removal or
replacement, only two child moves — and leaves the parent's realized
children in sibling order C, B, A (nodes 4, 3, 2). -/
theorem c1_keyed_reversal :
    c1Result.map
        (fun r =>
          (r.1, r.2.trace, (domGet r.2.dom 1).map (fun n => n.children),
            r.2.trace.filter isCreateOp))
      = some
          (some 1,
            [DomOp.insertBefore 1 3 none, DomOp.insertBefore 1 2 none],
            some [4, 3, 2], []) := by
  rfl

/-! ## Claim C4: is patching a tree against itself mutation-free? -/

/-- A realized div with two realized text children. -/
def c4Dom : Dom :=
  { nodes :=
      [ (0, { tag := some "root", children := [1] })
      , (1, { tag := some "div", children := [2, 3] })
      , (2, { text := "x" })
      , (3, { text := "y" }) ]
    nextId := 4 }

def c4Tree : VNode :=
  VNode.elem "div" [("className", PValue.str "box")]
    [VNode.text "x" (some 2), VNode.text "y" (some 3)] none (some 1)

def c4Result : Option (Option Nat × PatchSt) :=
  patch 30 (some c4Tree) (some c4Tree) 0 { dom := c4Dom }

set_option maxRecDepth 10000 in
/-- C4 counterexample: the claim says patch(t, t) performs zero
mutations, in particular that no child node is inserted, moved or
removed.  Because the child loop computes map.get(key) with a falsy
fallback (oldIndex || -1), the first matched child's index 0 collapses
to -1, which is below the high-water mark, so a redundant move of the
first child is queued and performed: the trace holds an insertBefore
call (the DOM store itself is unchanged). -/
theorem c4_counterexample :
    c4Result.map (fun r => (r.2.trace, r.2.dom))
      = some ([DomOp.insertBefore 1 2 (some 3)], c4Dom)
      ∧ ¬ c4Result.map (fun r => r.2.trace) = some [] := by
  constructor
  · rfl
  · intro h
    rw [show c4Result.map (fun r => r.2.trace)
        = some [DomOp.insertBefore 1 2 (some 3)] from rfl] at h
    exact absurd (Option.some.inj h) (by decide)

/-! ### Self-patching: supporting definitions -/

/-- A child-move DOM call. -/
def isMoveOp : DomOp → Bool
  | .insertBefore _ _ _ => true
  | _ => false

/-- The trace of st2 extends the trace of st1 by child-move calls
only. -/
def traceIB (st1 st2 : PatchSt) : Prop :=
  ∃ ops, st2.trace = st1.trace ++ ops ∧ ∀ op ∈ ops, isMoveOp op = true


theorem traceIB_of_eq {st1 st2 : PatchSt} (h : st2.trace = st1.trace) :
    traceIB st1 st2 := ⟨[], by simp [h], by simp⟩

theorem traceIB_trans {st1 st2 st3 : PatchSt}
    (h1 : traceIB st1 st2) (h2 : traceIB st2 st3) : traceIB st1 st3 := by
  obtain ⟨o1, e1, a1⟩ := h1
  obtain ⟨o2, e2, a2⟩ := h2
  refine ⟨o1 ++ o2, by simp [e2, e1], ?_⟩
  intro op hop
  rcases List.mem_append.1 hop with h | h
  · exact a1 op h
  · exact a2 op h

/-- Well-formedness of a virtual tree: every props record has unique
keys (JavaScript objects) and the derived reconciliation keys of every
sibling list are pairwise distinct (the documented key requirement). -/
def childKeys : List VNode → Nat → List JKey
  | [], _ => []
  | c :: rest, i => getVNodeKey c i :: childKeys rest (i + 1)

inductive WfV : VNode → Prop where
  | text : ∀ s el, WfV (.text s el)
  | comp : ∀ cid p ck el, WfV (.comp cid p ck el)
  | elem : ∀ tag props cs key el,
      NoDupKeys props →
      (childKeys cs 0).Nodup →
      (∀ c ∈ cs, WfV c) →
      WfV (.elem tag props cs key el)

/-- A virtual tree with an existing realized binding: every node is
bound, bound element nodes exist in the store and their realized
children are exactly the bindings of their virtual children. -/
inductive Realized (d : Dom) : VNode → Prop where
  | text : ∀ s n, Realized d (.text s (some n))
  | comp : ∀ cid p ck n, Realized d (.comp cid p ck (some n))
  | elem : ∀ tag props cs key n node,
      domGet d n = some node →
      node.children = cs.filterMap vnodeEl →
      (∀ c ∈ cs, Realized d c) →
      Realized d (.elem tag props cs key (some n))

/-- Unique node ids in the DOM store. -/
def DomIdsNodup (d : Dom) : Prop := (d.nodes.map (·.1)).Nodup

theorem realized_el_isSome {d : Dom} {v : VNode} (h : Realized d v) :
    (vnodeEl v).isSome = true := by
  cases h <;> simp [vnodeEl]

/-- With unique keys, reading a member entry gives its value. -/
theorem propsLookup_of_mem {p : Props} {k : String} {v : PValue}
    (hnd : NoDupKeys p) (hm : (k, v) ∈ p) : propsLookup k p = some v := by
  induction p with
  | nil => exact absurd hm (by simp)
  | cons e rest ih =>
      rcases List.mem_cons.1 hm with h | h
      · subst h
        simp [propsLookup]
      · have hk : k ≠ e.1 := by
          intro hk
          have hmem : e.1 ∈ rest.map (·.1) :=
            List.mem_map.2 ⟨(k, v), h, by rw [hk]⟩
          have hnd1 := hnd
          simp only [NoDupKeys, List.map_cons, List.nodup_cons] at hnd1
          exact absurd hmem hnd1.1
        have hnd2 : NoDupKeys rest := by
          have hnd1 := hnd
          simp only [NoDupKeys, List.map_cons, List.nodup_cons] at hnd1
          exact hnd1.2
        have hrec := ih hnd2 h
        simp only [propsLookup, List.find?_cons] at hrec ⊢
        cases hbe : (e.1 == k) with
        | true =>
            have heq : e.1 = k := by simpa using hbe
            exact absurd heq.symm hk
        | false => exact hrec

theorem foldl_id_of_mem {α β : Type} (l : List α) (f : β → α → β) (s : β)
    (h : ∀ x ∈ l, ∀ b, f b x = b) : l.foldl f s = s := by
  induction l generalizing s with
  | nil => rfl
  | cons a rest ih =>
      rw [List.foldl_cons, h a (by simp)]
      exact ih s (fun x hx b => h x (by simp [hx]) b)

/-- Diffing a props record against itself removes nothing. -/
theorem removeOldPass_self (el : Nat) (p : Props) (st : PatchSt)
    (hnd : NoDupKeys p) : removeOldPass el p p st = st := by
  unfold removeOldPass
  apply foldl_id_of_mem
  intro x hx b
  obtain ⟨k, v⟩ := x
  have hlk := propsLookup_of_mem hnd hx
  by_cases hon : strStarts k "on" = true
  · simp [hon, hasOwnProp, hlk, identEqOpt, identEqP_refl v]
  · simp [hon, hasOwnProp, hlk]

/-- Diffing a props record against itself sets nothing. -/
theorem setNewPass_self (el : Nat) (p : Props) (st : PatchSt)
    (hnd : NoDupKeys p) : setNewPass el p p st = st := by
  unfold setNewPass
  apply foldl_id_of_mem
  intro x hx b
  obtain ⟨k, v⟩ := x
  have hlk := propsLookup_of_mem hnd hx
  by_cases hon : strStarts k "on" = true
  · simp [hon]
  · simp [hon, hlk, identEqOpt, identEqP_refl v]

/-- Diffing a props record against itself touches no listener. -/
theorem addListenerPass_self (el : Nat) (p : Props) (st : PatchSt)
    (hnd : NoDupKeys p) : addListenerPass el p p st = st := by
  unfold addListenerPass
  apply foldl_id_of_mem
  intro x hx b
  obtain ⟨k, v⟩ := x
  have hlk := propsLookup_of_mem hnd hx
  cases v with
  | fn f => simp [hlk, identEqOpt, identEqP_refl]
  | str s => simp
  | num n => simp
  | boolean bb => simp
  | objv i fl => simp
  | nullv => simp

/-- updateProps of a props record against itself is a complete
no-op. -/
theorem updateProps_self (el : Nat) (p : Props) (st : PatchSt)
    (hnd : NoDupKeys p) : updateProps el p p st = st := by
  unfold updateProps
  rw [removeOldPass_self el p st hnd, setNewPass_self el p st hnd,
    addListenerPass_self el p st hnd]

/-- In an association list with pairwise-distinct keys, two members
with the same key are the same entry. -/
theorem assoc_unique {α β : Type} [DecidableEq α] {l : List (α × β)}
    (hnd : (l.map (·.1)).Nodup) {x y : α × β}
    (hx : x ∈ l) (hy : y ∈ l) (hk : x.1 = y.1) : x = y := by
  induction l with
  | nil => exact absurd hx (by simp)
  | cons a rest ih =>
      simp only [List.map_cons, List.nodup_cons] at hnd
      rcases List.mem_cons.1 hx with hx1 | hx1 <;>
        rcases List.mem_cons.1 hy with hy1 | hy1
      · rw [hx1, hy1]
      · subst hx1
        exact absurd (List.mem_map.2 ⟨y, hy1, hk.symm⟩) hnd.1
      · subst hy1
        exact absurd (List.mem_map.2 ⟨x, hx1, hk⟩) hnd.1
      · exact ih hnd.2 hx1 hy1

theorem map_id_of_mem {α : Type} (l : List α) (f : α → α)
    (h : ∀ x ∈ l, f x = x) : l.map f = l := by
  induction l with
  | nil => rfl
  | cons a rest ih =>
      rw [List.map_cons, h a (by simp), ih (fun x hx => h x (by simp [hx]))]

/-- Writing back the node a unique id already holds leaves the store
unchanged. -/
theorem domSetNode_self {d : Dom} {p : Nat} {n : RNode}
    (hnd : DomIdsNodup d) (hg : domGet d p = some n) : domSetNode d p n = d := by
  unfold domSetNode
  have hfind : ∃ e ∈ d.nodes, d.nodes.find? (fun q => q.1 == p) = some e
      ∧ e.1 = p ∧ e.2 = n := by
    unfold domGet at hg
    cases hf : d.nodes.find? (fun q => q.1 == p) with
    | none => rw [hf] at hg; exact absurd hg (by simp)
    | some e =>
        rw [hf] at hg
        refine ⟨e, List.mem_of_find?_eq_some hf, rfl, ?_, by simpa using hg⟩
        have := List.find?_some hf
        simpa using this
  obtain ⟨e, hmem, _, hep, hen⟩ := hfind
  have hmap : d.nodes.map (fun q => if q.1 == p then (q.1, n) else q) = d.nodes := by
    apply map_id_of_mem
    intro x hx
    by_cases hxp : (x.1 == p) = true
    · have hx1 : x.1 = p := by simpa using hxp
      have hxe : x = e := assoc_unique hnd hx hmem (by rw [hx1, hep])
      have hx2 : x.2 = n := by rw [hxe]; exact hen
      rw [if_pos hxp, ← hx2]
    · rw [if_neg hxp]
  cases d with
  | mk nodes nextId => simpa using hmap

/-- Re-inserting the head child before its immediate sibling leaves the
store unchanged. -/
theorem applyOp_reinsert_head {d : Dom} {p oe r1 : Nat} {node : RNode}
    {rest : List Nat}
    (hnd : DomIdsNodup d) (hg : domGet d p = some node)
    (hc : node.children = oe :: r1 :: rest) :
    applyOp d (.insertBefore p oe (some r1)) = d := by
  simp only [applyOp, updateNode]
  rw [hg]
  dsimp only
  have herase : node.children.erase oe = r1 :: rest := by
    rw [hc]; simp [List.erase_cons_head]
  have hins : insertBeforeList oe r1 (r1 :: rest) = oe :: r1 :: rest := by
    simp [insertBeforeList]
  rw [herase, hins, ← hc]
  exact domSetNode_self hnd hg

/-- Re-appending an only child leaves the store unchanged. -/
theorem applyOp_reappend_single {d : Dom} {p oe : Nat} {node : RNode}
    (hnd : DomIdsNodup d) (hg : domGet d p = some node)
    (hc : node.children = [oe]) :
    applyOp d (.insertBefore p oe none) = d := by
  simp only [applyOp, updateNode]
  rw [hg]
  dsimp only
  have herase : node.children.erase oe ++ [oe] = node.children := by
    rw [hc]; simp [List.erase_cons_head]
  rw [herase]
  exact domSetNode_self hnd hg

/-- A child at position j contributes its derived key to childKeys. -/
theorem childKeys_mem : ∀ (cs : List VNode) (i0 j : Nat) (c : VNode),
    cs.get? j = some c → getVNodeKey c (i0 + j) ∈ childKeys cs i0
  | [], _, j, c, h => absurd h (by simp)
  | c0 :: rest, i0, 0, c, h => by
      have : c0 = c := by simpa using h
      subst this
      simp [childKeys]
  | c0 :: rest, i0, j + 1, c, h => by
      have hrec := childKeys_mem rest (i0 + 1) j c (by simpa using h)
      simp only [childKeys, List.mem_cons]
      right
      have : i0 + 1 + j = i0 + (j + 1) := by omega
      rwa [this] at hrec

/-- When all remaining keys were matched, the removal pass removes
nothing. -/
theorem removeUnused_id (p : Nat) (used : List JKey) :
    ∀ (cs : List VNode) (i : Nat) (st : PatchSt),
      (∀ j c, cs.get? j = some c → getVNodeKey c (i + j) ∈ used) →
      removeUnused p used cs i st = st
  | [], _, st, _ => rfl
  | c :: rest, i, st, h => by
      have hc : getVNodeKey c i ∈ used := by
        have := h 0 c (by simp)
        simpa using this
      unfold removeUnused
      rw [if_pos hc]
      exact removeUnused_id p used rest (i + 1) st
        (fun j cj hj => by
          have := h (j + 1) cj (by simpa using hj)
          have heq : i + (j + 1) = i + 1 + j := by omega
          rwa [heq] at this)

/-- The entries the indexing loop appends when no key repeats. -/
def keyEntries : List VNode → Nat → List (JKey × Nat × VNode)
  | [], _ => []
  | c :: rest, i => (getVNodeKey c i, i, c) :: keyEntries rest (i + 1)

theorem keyEntries_keys : ∀ (cs : List VNode) (i : Nat),
    (keyEntries cs i).map (·.1) = childKeys cs i
  | [], _ => rfl
  | c :: rest, i => by
      simp only [keyEntries, childKeys, List.map_cons]
      rw [keyEntries_keys rest (i + 1)]

/-- With pairwise-distinct derived keys, the indexing loop never
overwrites: it reduces to plain appending. -/
theorem buildOldKeyMapAux_eq : ∀ (cs : List VNode) (i : Nat)
    (acc : List (JKey × Nat × VNode)),
    (childKeys cs i).Nodup →
    (∀ e ∈ acc, e.1 ∉ childKeys cs i) →
    buildOldKeyMapAux cs i acc = acc ++ keyEntries cs i
  | [], _, acc, _, _ => by simp [buildOldKeyMapAux, keyEntries]
  | c :: rest, i, acc, hnd, hdisj => by
      have hnotin : (acc.find? (fun e => e.1 == getVNodeKey c i)).isSome = false := by
        cases hf : acc.find? (fun e => e.1 == getVNodeKey c i) with
        | none => rfl
        | some e =>
            have hp := List.find?_some hf
            have hm := List.mem_of_find?_eq_some hf
            have he1 : e.1 = getVNodeKey c i := by simpa using hp
            have hin : e.1 ∈ childKeys (c :: rest) i := by
              rw [he1]; simp [childKeys]
            exact absurd hin (hdisj e hm)
      simp only [buildOldKeyMapAux, hnotin, Bool.false_eq_true, if_false]
      have hnd2 : (childKeys rest (i + 1)).Nodup := by
        have := hnd
        simp only [childKeys, List.nodup_cons] at this
        exact this.2
      have hhead : getVNodeKey c i ∉ childKeys rest (i + 1) := by
        have := hnd
        simp only [childKeys, List.nodup_cons] at this
        exact this.1
      have hdisj2 : ∀ e ∈ acc ++ [(getVNodeKey c i, i, c)],
          e.1 ∉ childKeys rest (i + 1) := by
        intro e he
        rcases List.mem_append.1 he with he | he
        · exact fun hk => hdisj e he (by simp [childKeys, hk])
        · have : e = (getVNodeKey c i, i, c) := by simpa using he
          rw [this]
          exact hhead
      rw [buildOldKeyMapAux_eq rest (i + 1) _ hnd2 hdisj2]
      simp [keyEntries]

/-- Finding a key in the plain entries list. -/
theorem keyEntries_find : ∀ (cs : List VNode) (i0 j : Nat) (c : VNode),
    (childKeys cs i0).Nodup →
    cs.get? j = some c →
    keyMapFind (keyEntries cs i0) (getVNodeKey c (i0 + j)) = some (i0 + j, c)
  | [], _, j, c, _, h => absurd h (by simp)
  | c0 :: rest, i0, 0, c, _, h => by
      have hc : c0 = c := by simpa using h
      subst hc
      simp [keyEntries, keyMapFind]
  | c0 :: rest, i0, j + 1, c, hnd, h => by
      simp only [childKeys, List.nodup_cons] at hnd
      have hmem : getVNodeKey c (i0 + 1 + j) ∈ childKeys rest (i0 + 1) :=
        childKeys_mem rest (i0 + 1) j c (by simpa using h)
      have hne : getVNodeKey c0 i0 ≠ getVNodeKey c (i0 + (j + 1)) := by
        intro heq
        rw [show i0 + (j + 1) = i0 + 1 + j from by omega] at heq
        rw [← heq] at hmem
        exact hnd.1 hmem
      have hrec := keyEntries_find rest (i0 + 1) j c hnd.2 (by simpa using h)
      simp only [keyEntries, keyMapFind, List.find?_cons]
      have hbe : (getVNodeKey c0 i0 == getVNodeKey c (i0 + (j + 1))) = false := by
        simpa using hne
      rw [hbe]
      rw [show i0 + (j + 1) = i0 + 1 + j from by omega]
      simpa [keyMapFind] using hrec

/-- The loop's key lookup for position j returns exactly index j and
the child at j, provided sibling keys are pairwise distinct. -/
theorem buildOldKeyMap_find (cs : List VNode) (j : Nat) (c : VNode)
    (hnd : (childKeys cs 0).Nodup) (h : cs.get? j = some c) :
    keyMapFind (buildOldKeyMap cs) (getVNodeKey c j) = some (j, c) := by
  unfold buildOldKeyMap
  rw [buildOldKeyMapAux_eq cs 0 [] hnd (by simp)]
  have := keyEntries_find cs 0 j c hnd h
  simpa using this

/-- The single redundant move the self-patch child loop queues: the
first child (its index 0 collapses to -1 by the falsy fallback) is
re-inserted before the second child's binding. -/
def firstMove (cs : List VNode) : List (Nat × Option Nat) :=
  match cs with
  | [] => []
  | c0 :: rest =>
      match vnodeEl c0 with
      | some oe =>
          [(oe,
            match rest.head? with
            | some c1 => vnodeEl c1
            | none => none)]
      | none => []

/-- Self-patch property of the patch call: the DOM store is unchanged
and the trace gains child-move calls only. -/
def PatchSelfP (fuel : Nat) : Prop :=
  ∀ v p st r st', WfV v → Realized st.dom v → DomIdsNodup st.dom →
    patchRun fuel (.patchC (some v) (some v) p) st = some (r, st') →
    st'.dom = st.dom ∧ traceIB st st'

/-- Self-patch property of the child-list call. -/
def ChildrenSelfP (fuel : Nat) : Prop :=
  ∀ cs p st r st' (node : RNode),
    (∀ c ∈ cs, WfV c) → (childKeys cs 0).Nodup →
    (∀ c ∈ cs, Realized st.dom c) → DomIdsNodup st.dom →
    domGet st.dom p = some node → node.children = cs.filterMap vnodeEl →
    patchRun fuel (.childrenC cs cs p) st = some (r, st') →
    st'.dom = st.dom ∧ traceIB st st'

/-- Self-patch property of the per-child loop call, generalized over
the iteration state. -/
def LoopSelfP (fuel : Nat) : Prop :=
  ∀ cs (i : Nat) mv u p st r st',
    (∀ c ∈ cs, WfV c) → (childKeys cs 0).Nodup →
    (∀ c ∈ cs, Realized st.dom c) → DomIdsNodup st.dom →
    patchRun fuel
        (.loopC (buildOldKeyMap cs) p (cs.drop i) i (((i - 1 : Nat) : Int)) mv u) st
      = some (r, st') →
    st'.dom = st.dom ∧ traceIB st st'
      ∧ r.used = u ++ childKeys (cs.drop i) i
      ∧ (i = 0 → r.moves = mv ++ firstMove cs)
      ∧ (1 ≤ i → r.moves = mv)

theorem traceIB_emit {st : PatchSt} (op : DomOp) (h : isMoveOp op = true) :
    traceIB st (emit op st) := ⟨[op], by simp [emit], by simpa using h⟩

theorem childrenSelf_step (fuel : Nat) (ihL : LoopSelfP fuel) :
    ChildrenSelfP (fuel + 1) := by
  intro cs p st r st' node hwf hkeys hreal hnd hg hchild hrun
  simp only [patchRun] at hrun
  rcases Option.bind_eq_some.mp hrun with ⟨⟨r1, st1⟩, h1, h2⟩
  simp only [Option.some.injEq, Prod.mk.injEq] at h2
  obtain ⟨hr, hst'⟩ := h2
  have hloop := ihL cs 0 [] [] p st r1 st1 hwf hkeys hreal hnd h1
  obtain ⟨hdom1, htr1, hused, hmv, _⟩ := hloop
  have hmv0 : r1.moves = firstMove cs := by simpa using hmv rfl
  have hused0 : r1.used = childKeys cs 0 := by simpa using hused
  -- the moves fold performs at most the one redundant re-insertion
  have hfold : (r1.moves.foldl (fun st mv => emit (.insertBefore p mv.1 mv.2) st) st1).dom
        = st.dom
      ∧ traceIB st (r1.moves.foldl (fun st mv => emit (.insertBefore p mv.1 mv.2) st) st1) := by
    rw [hmv0]
    cases hcs : cs with
    | nil => simp only [firstMove, List.foldl_nil]; exact ⟨hdom1, htr1⟩
    | cons c0 rest =>
        have hc0real : Realized st.dom c0 := hreal c0 (by simp [hcs])
        obtain ⟨oe, hoe⟩ : ∃ oe, vnodeEl c0 = some oe := by
          cases hc0real <;> exact ⟨_, rfl⟩
        have hchild2 : node.children = oe :: rest.filterMap vnodeEl := by
          rw [hchild, hcs, List.filterMap_cons, hoe]
        simp only [firstMove, hoe, List.foldl_cons, List.foldl_nil]
        have hg1 : domGet st1.dom p = some node := by rw [hdom1]; exact hg
        have hnd1 : DomIdsNodup st1.dom := by rw [hdom1]; exact hnd
        cases hrest : rest with
        | nil =>
            have hco : node.children = [oe] := by
              rw [hchild2, hrest]; rfl
            have happ : applyOp st1.dom (.insertBefore p oe none) = st1.dom :=
              applyOp_reappend_single hnd1 hg1 hco
            constructor
            · show (emit (.insertBefore p oe none) st1).dom = st.dom
              simp only [emit, happ]
              exact hdom1
            · exact traceIB_trans htr1 (traceIB_emit _ (by rfl))
        | cons c1 rest2 =>
            have hc1real : Realized st.dom c1 := hreal c1 (by simp [hcs, hrest])
            obtain ⟨e1, he1⟩ : ∃ e1, vnodeEl c1 = some e1 := by
              cases hc1real <;> exact ⟨_, rfl⟩
            have hco : node.children = oe :: e1 :: rest2.filterMap vnodeEl := by
              rw [hchild2, hrest, List.filterMap_cons, he1]
            have happ : applyOp st1.dom (.insertBefore p oe (some e1)) = st1.dom :=
              applyOp_reinsert_head hnd1 hg1 hco
            constructor
            · show (emit (.insertBefore p oe (vnodeEl c1)) st1).dom = st.dom
              rw [he1]
              simp only [emit, happ]
              exact hdom1
            · exact traceIB_trans htr1 (traceIB_emit _ (by rfl))
  -- the removal pass removes nothing: every key was matched
  have hrm : removeUnused p r1.used cs 0
        (r1.moves.foldl (fun st mv => emit (.insertBefore p mv.1 mv.2) st) st1)
      = (r1.moves.foldl (fun st mv => emit (.insertBefore p mv.1 mv.2) st) st1) := by
    apply removeUnused_id
    intro j c hj
    rw [hused0]
    exact childKeys_mem cs 0 j c hj
  rw [← hst', hrm]
  exact hfold

theorem loopSelf_step (fuel : Nat) (ihP : PatchSelfP fuel) (ihL : LoopSelfP fuel) :
    LoopSelfP (fuel + 1) := by
  intro cs i mv u p st r st' hwf hkeys hreal hnd hrun
  simp only [patchRun] at hrun
  cases hdrop : cs.drop i with
  | nil =>
      rw [hdrop] at hrun
      simp only [Option.some.injEq, Prod.mk.injEq] at hrun
      obtain ⟨hr, hst⟩ := hrun
      subst hst
      refine ⟨rfl, traceIB_of_eq rfl, ?_, ?_, ?_⟩
      · rw [← hr]; simp [childKeys]
      · intro hi
        subst hi
        have hcsnil : cs = [] := by simpa using hdrop
        rw [← hr, hcsnil]
        simp [firstMove]
      · intro _
        rw [← hr]
  | cons c rest =>
      rw [hdrop] at hrun
      have hget : cs.get? i = some c := by
        have h0 : (cs.drop i)[0]? = cs[i + 0]? := List.getElem?_drop cs i 0
        rw [hdrop] at h0
        simpa [List.get?_eq_getElem?] using h0.symm
      have hrest : cs.drop (i + 1) = rest := by
        have h0 := List.drop_drop 1 i cs
        rw [hdrop] at h0
        simpa using h0.symm
      have hcmem : c ∈ cs := List.get?_mem hget
      have hkfind := buildOldKeyMap_find cs i c hkeys hget
      simp only [hkfind] at hrun
      rcases Option.bind_eq_some.mp hrun with ⟨⟨r2, st2⟩, hpat, hcont⟩
      obtain ⟨hdom2, htr2⟩ :=
        ihP c p st r2 st2 (hwf c hcmem) (hreal c hcmem) hnd hpat
      obtain ⟨oe, hoe⟩ : ∃ oe, vnodeEl c = some oe := by
        cases hreal c hcmem <;> exact ⟨_, rfl⟩
      have hreal2 : ∀ x ∈ cs, Realized st2.dom x := by
        rw [hdom2]; exact hreal
      have hnd2 : DomIdsNodup st2.dom := by rw [hdom2]; exact hnd
      by_cases hi : i = 0
      · subst hi
        have hcs : cs = c :: rest := by simpa using hdrop
        rw [if_pos (by decide)] at hcont
        rw [hoe, ← hrest] at hcont
        have hl := ihL cs 1 _ _ p st2 r st' hwf hkeys hreal2 hnd2 hcont
        obtain ⟨hdomF, htrF, husedF, _, hmvF⟩ := hl
        refine ⟨hdomF.trans hdom2, traceIB_trans htr2 htrF, ?_, ?_, ?_⟩
        · rw [husedF, hrest]
          simp [childKeys]
        · intro _
          rw [hmvF (by omega), hrest, hcs]
          simp [firstMove, hoe]
        · intro h
          exact absurd h (by omega)
      · have hibeq : (i == 0) = false := by simpa using hi
        rw [hibeq] at hcont
        simp only [Bool.false_eq_true, if_false] at hcont
        have hcond : ¬ ((i : Int) < ((i - 1 : Nat) : Int)) := by omega
        rw [if_neg hcond] at hcont
        have hconv : ((i + 1 - 1 : Nat) : Int) = ((i : Nat) : Int) := by
          norm_num
        rw [← hrest, ← hconv] at hcont
        have hl := ihL cs (i + 1) _ _ p st2 r st' hwf hkeys hreal2 hnd2 hcont
        obtain ⟨hdomF, htrF, husedF, _, hmvF⟩ := hl
        refine ⟨hdomF.trans hdom2, traceIB_trans htr2 htrF, ?_, ?_, ?_⟩
        · rw [husedF, hrest]
          simp [childKeys]
        · intro h
          exact absurd h hi
        · intro _
          exact hmvF (by omega)

/-- A virtual node never tag-mismatches itself. -/
theorem tagMismatch_self (v : VNode) : tagMismatch v v = false := by
  cases v <;> simp [tagMismatch]

theorem patchSelf_step (fuel : Nat) (ihC : ChildrenSelfP fuel) :
    PatchSelfP (fuel + 1) := by
  intro v p st r st' hwf hreal hnd hrun
  simp only [patchRun, bne_self_eq_false, Bool.false_eq_true, if_false,
    tagMismatch_self] at hrun
  cases v with
  | text s el =>
      simp only [bne_self_eq_false, Bool.false_eq_true, if_false,
        Option.some.injEq, Prod.mk.injEq] at hrun
      obtain ⟨_, hst⟩ := hrun
      subst hst
      exact ⟨rfl, traceIB_of_eq rfl⟩
  | comp cid pr ck el =>
      simp only [beq_self_eq_true, if_true, Option.some.injEq,
        Prod.mk.injEq] at hrun
      obtain ⟨_, hst⟩ := hrun
      subst hst
      exact ⟨rfl, traceIB_of_eq rfl⟩
  | elem tag props cs key el =>
      cases hwf with
      | elem _ _ _ _ _ hpnd hknd hcwf =>
      cases el with
      | none => cases hreal
      | some e =>
          cases hreal with
          | elem _ _ _ _ _ node hg hchild hcreal =>
          have hupd : (if ((tag != "fragment") && (tag != "fragment")) = true
              then updateProps e props props st else st) = st := by
            split
            · exact updateProps_self e props st hpnd
            · rfl
          rcases Option.bind_eq_some.mp hrun with ⟨⟨r1, st1⟩, h1, h2⟩
          rw [hupd] at h1
          simp only [Option.some.injEq, Prod.mk.injEq] at h2
          obtain ⟨_, hst⟩ := h2
          subst hst
          exact ihC cs e st r1 st1 node hcwf hknd hcreal hnd hg hchild h1

/-- The three self-patch properties hold at every fuel level. -/
theorem patchRun_self_all :
    ∀ fuel, PatchSelfP fuel ∧ ChildrenSelfP fuel ∧ LoopSelfP fuel := by
  intro fuel
  induction fuel with
  | zero =>
      refine ⟨?_, ?_, ?_⟩
      · intro v p st r st' _ _ _ hrun
        simp [patchRun] at hrun
      · intro cs p st r st' node _ _ _ _ _ _ hrun
        simp [patchRun] at hrun
      · intro cs i mv u p st r st' _ _ _ _ hrun
        simp [patchRun] at hrun
  | succ fuel ih =>
      obtain ⟨ihP, ihC, ihL⟩ := ih
      exact ⟨patchSelf_step fuel ihC, childrenSelf_step fuel ihL,
        loopSelf_step fuel ihP ihL⟩

/-- C4 (amended): patching a well-formed realized virtual tree against
itself leaves the realized DOM store unchanged — no attribute is set
or removed, no text is written, no listener is attached or detached,
no node is created, removed or replaced — and the only calls it may
issue are redundant child re-insertions (insertBefore calls restoring
an order that already holds, an artifact of the falsy index-0
fallback). -/
theorem c4_self_patch (fuel : Nat) (v : VNode) (p : Nat) (st : PatchSt)
    (res : Option Nat × PatchSt)
    (hwf : WfV v) (hreal : Realized st.dom v) (hnd : DomIdsNodup st.dom)
    (hp : patch fuel (some v) (some v) p st = some res) :
    res.2.dom = st.dom
      ∧ ∃ ops, res.2.trace = st.trace ++ ops ∧ ∀ op ∈ ops, isMoveOp op = true := by
  unfold patch at hp
  rcases Option.map_eq_some'.mp hp with ⟨⟨r1, st1⟩, h1, h2⟩
  obtain ⟨hdom, htr⟩ := (patchRun_self_all fuel).1 v p st r1 st1 hwf hreal hnd h1
  subst h2
  exact ⟨hdom, htr⟩

set_option maxRecDepth 10000 in
theorem c4_amended_witness :
    ({ dom := c4Dom, trace := [DomOp.insertBefore 1 2 (some 3)] } : PatchSt).dom
        = ({ dom := c4Dom } : PatchSt).dom
      ∧ ∃ ops,
          ({ dom := c4Dom, trace := [DomOp.insertBefore 1 2 (some 3)] } : PatchSt).trace
            = ({ dom := c4Dom } : PatchSt).trace ++ ops
          ∧ ∀ op ∈ ops, isMoveOp op = true := by
  have hwf : WfV c4Tree := by
    have h : WfV (VNode.elem "div" [("className", PValue.str "box")]
        [VNode.text "x" (some 2), VNode.text "y" (some 3)] none (some 1)) := by
      refine WfV.elem _ _ _ _ _ ?_ ?_ ?_
      · simp [NoDupKeys]
      · decide
      · intro c hc
        simp only [List.mem_cons, List.not_mem_nil, or_false] at hc
        rcases hc with rfl | rfl <;> exact WfV.text _ _
    exact h
  have hreal : Realized c4Dom c4Tree := by
    have h : Realized c4Dom (VNode.elem "div" [("className", PValue.str "box")]
        [VNode.text "x" (some 2), VNode.text "y" (some 3)] none (some 1)) := by
      refine Realized.elem _ _ _ _ _
        { tag := some "div", children := [2, 3] } ?_ ?_ ?_
      · rfl
      · rfl
      · intro c hc
        simp only [List.mem_cons, List.not_mem_nil, or_false] at hc
        rcases hc with rfl | rfl <;> exact Realized.text _ _
    exact h
  have hnd : DomIdsNodup c4Dom := by
    simp only [DomIdsNodup, c4Dom]
    decide
  exact c4_self_patch 30 c4Tree 0 { dom := c4Dom }
    (some 1, { dom := c4Dom, trace := [DomOp.insertBefore 1 2 (some 3)] })
    hwf hreal hnd (by rfl)

/-! ## Claim C7: does the template compiler fail fast on bad markup?

The html tagged template (jsx-vdom.ts) combines the template strings,
hands the markup to parseHTML, and parseHTML assigns it to the
innerHTML of a platform template element.  That assignment invokes the
platform HTML fragment parser, which by the HTML standard never
throws: malformed and unbalanced markup is error-corrected (an
unmatched end tag is ignored, an end tag closes intervening open
elements, end of input closes everything still open).  The model below
embeds the compiler over the attribute-free markup subset — tags of
lowercase letters, no = sign, so both substitution patterns of
preserveCamelCaseProps cannot match, and domToVNode's conversion of a
platform node is exactly: text node to text vnode, element to an
element vnode carrying its lowercase tag, empty props and converted
children (the component-registry branch is the module's registry,
modeled empty).  Outside the subset the model abstains with none. -/

/-- A lexical token of the fragment parser model. -/
inductive Tok where
  | topen (tag : String)
  | tclose (tag : String)
  | ttxt (s : String)
deriving DecidableEq, Repr

def isTagChar (c : Char) : Bool := 'a' ≤ c && c ≤ 'z'

/-- The tokenizer of the fragment parser model: open tags, end tags
and text runs; none marks markup outside the attribute-free subset. -/
def lexAux : Nat → List Char → Option (List Tok)
  | 0, _ => none
  | _ + 1, [] => some []
  | fuel + 1, c :: cs =>
      if c = '<' then
        match cs with
        | '/' :: cs2 =>
            let tag := cs2.takeWhile isTagChar
            if tag = [] then none
            else
              match cs2.dropWhile isTagChar with
              | '>' :: cs3 =>
                  (lexAux fuel cs3).map (fun ts => Tok.tclose (String.mk tag) :: ts)
              | _ => none
        | _ =>
            let tag := cs.takeWhile isTagChar
            if tag = [] then none
            else
              match cs.dropWhile isTagChar with
              | '>' :: cs3 =>
                  (lexAux fuel cs3).map (fun ts => Tok.topen (String.mk tag) :: ts)
              | _ => none
      else
        (lexAux fuel ((c :: cs).dropWhile (fun ch => ch ≠ '<'))).map
          (fun ts => Tok.ttxt (String.mk ((c :: cs).takeWhile (fun ch => ch ≠ '<'))) :: ts)

/-- End-of-input recovery of the fragment parser: every element still
open is closed where it stands.  The tree is built directly as virtual
nodes: on the attribute-free subset domToVNode maps a platform element
to exactly this element vnode (lowercase tag, empty props, converted
children, no key, no binding). -/
def closeAll : List (String × List VNode) → List VNode → List VNode
  | [], cur => cur
  | (t, sib) :: stk, cur => closeAll stk (sib ++ [VNode.elem t [] cur none none])

/-- End-tag recovery of the fragment parser: unwind the open-element
stack to the nearest matching open tag, closing intervening elements
(the standard's implied end tags); called only when the tag is open. -/
def popTo (t : String) : List (String × List VNode) → List VNode →
    List (String × List VNode) × List VNode
  | [], cur => ([], cur)
  | (u, sib) :: stk, cur =>
      if u = t then (stk, sib ++ [VNode.elem u [] cur none none])
      else popTo t stk (sib ++ [VNode.elem u [] cur none none])

/-- Tree construction of the fragment parser model: text is appended,
an open tag pushes a frame, an end tag with no matching open tag is a
parse error the standard recovers from by ignoring the token, and end
of input closes all open elements.  No input is rejected. -/
def buildAux : List Tok → List (String × List VNode) → List VNode → List VNode
  | [], stk, cur => closeAll stk cur
  | Tok.ttxt s :: ts, stk, cur => buildAux ts stk (cur ++ [VNode.text s none])
  | Tok.topen t :: ts, stk, cur => buildAux ts ((t, cur) :: stk) []
  | Tok.tclose t :: ts, stk, cur =>
      if (stk.map (fun f => f.1)).contains t then
        let pc := popTo t stk cur
        buildAux ts pc.1 pc.2
      else buildAux ts stk cur

/-- template.innerHTML = s followed by reading template.content: the
platform fragment parser model, composed with domToVNode's subset
conversion. -/
def innerHTMLModel (s : String) : Option (List VNode) :=
  (lexAux (s.data.length + 1) s.data).map (fun ts => buildAux ts [] [])

/-- The whitespace removal of String.prototype.trim, over characters. -/
def isWsChar (c : Char) : Bool :=
  c = ' ' || c = '\n' || c = '\t' || c = '\r'

def trimChars (cs : List Char) : List Char :=
  ((cs.dropWhile isWsChar).reverse.dropWhile isWsChar).reverse

/-- preserveCamelCaseProps (jsx-vdom.ts): both of its substitution
regexes match only an attribute assignment — an = sign followed by a
quoted value — so on markup holding no = sign neither matches and the
string is returned unchanged; markup holding an = sign is outside the
modeled subset (none). -/
def preserveCamelCaseProps (s : String) : Option String :=
  if s.data.contains '=' then none else some s

/-- parseHTML (jsx-vdom.ts): trim, preserveCamelCaseProps, hand the
markup to the platform template parser, read content.firstChild and
convert it with domToVNode.  Outer none: outside the modeled subset.
Inner none: firstChild is null (empty parse result), and
domToVNode(null) throws a TypeError reading nodeType — the only
synchronous failure of the compiler; a nonempty parse always converts
to a virtual node. -/
def parseHTML (s : String) : Option (Option VNode) :=
  (preserveCamelCaseProps (String.mk (trimChars s.data))).bind fun p =>
    (innerHTMLModel p).map (fun nodes => nodes.head?)

/-- The lexical pre-stage of parseHTML (trim, preserveCamelCaseProps,
tokenizer), naming the token list of a markup string. -/
def markupToks (s : String) : Option (List Tok) :=
  (preserveCamelCaseProps (String.mk (trimChars s.data))).bind fun p =>
    lexAux (p.data.length + 1) p.data

/-- A token that contributes a node to the fragment. -/
def isContentTok : Tok → Bool
  | Tok.topen _ => true
  | Tok.ttxt _ => true
  | Tok.tclose _ => false

def phPat : List Char := "__VDOM_PLACEHOLDER_".data

/-- Substring occurrence, for the placeholder regex tests. -/
def hasSub (pat : List Char) : List Char → Bool
  | [] => charsBegin pat []
  | c :: cs => charsBegin pat (c :: cs) || hasSub pat cs

/-- A pending call of replacePlaceholders. -/
inductive RPCall where
  | node (v : VNode)
  | list (cs : List VNode)

/-- replacePlaceholders (jsx-vdom.ts) for an empty value list, as one
fuel-structural interpreter (kernel-computable).  A text node without
the placeholder pattern is returned unchanged; an element is rebuilt —
tag and props kept, children converted, a child coming back tagged
fragment flattened into its children, key and binding dropped (the
source builds a fresh object without them); a component node falls to
the final return.  The component-registry branch never fires (registry
modeled empty) and a component-placeholder element falls through
because the empty value list yields no Component.  Text or a string
prop bearing the placeholder pattern would index the empty value list;
the model abstains there (none), as it does on fuel exhaustion. -/
def rpRun : Nat → RPCall → Option (VNode ⊕ List VNode)
  | 0, _ => none
  | fuel + 1, RPCall.node v =>
      match v with
      | VNode.text s el =>
          if hasSub phPat s.data then none
          else some (Sum.inl (VNode.text s el))
      | VNode.comp cid p ck el => some (Sum.inl (VNode.comp cid p ck el))
      | VNode.elem tag props cs _ _ =>
          if props.any (fun kv =>
              match kv.2 with
              | PValue.str s => hasSub phPat s.data
              | _ => false) then none
          else
            match rpRun fuel (RPCall.list cs) with
            | some (Sum.inr cs2) => some (Sum.inl (VNode.elem tag props cs2 none none))
            | _ => none
  | fuel + 1, RPCall.list cs =>
      match cs with
      | [] => some (Sum.inr [])
      | c :: rest =>
          match rpRun fuel (RPCall.node c), rpRun fuel (RPCall.list rest) with
          | some (Sum.inl c2), some (Sum.inr rest2) =>
              match c2 with
              | VNode.elem t tp fcs tk te =>
                  if t == "fragment" then some (Sum.inr (fcs ++ rest2))
                  else some (Sum.inr (VNode.elem t tp fcs tk te :: rest2))
              | _ => some (Sum.inr (c2 :: rest2))
          | _, _ => none

/-- html (jsx-vdom.ts) for a tagged template with no interpolated
values: the combining loop degenerates to concatenating the string
parts, parseHTML parses the markup, replacePlaceholders runs with the
empty value list.  some none models the thrown TypeError; outer none,
outside the modeled subset. -/
def htmlRun (fuel : Nat) (strings : List String) : Option (Option VNode) :=
  (parseHTML (String.join strings)).bind fun parsed =>
    match parsed with
    | none => some none
    | some v =>
        match rpRun fuel (RPCall.node v) with
        | some (Sum.inl v2) => some (some v2)
        | _ => none

def c7Bad : List String := ["<div><span>hi</div>"]

def c7Balanced : List String := ["<div><span>hi</span></div>"]

/-- C7 counterexample: on the template whose markup leaves the span
unclosed and closes div around it — unbalanced markup — the compiler
does not throw and does not return no virtual node: it returns a
virtual div, and exactly the same virtual tree as the balanced
markup; the malformed template was silently corrected. -/
theorem c7_counterexample :
    htmlRun 10 c7Bad
        = some (some (VNode.elem "div" []
            [VNode.elem "span" [] [VNode.text "hi" none] none none] none none))
      ∧ htmlRun 10 c7Bad = htmlRun 10 c7Balanced := by
  exact ⟨rfl, rfl⟩

theorem closeAll_ne_nil : ∀ (stk : List (String × List VNode)) (cur : List VNode),
    cur ≠ [] ∨ stk ≠ [] → closeAll stk cur ≠ []
  | [], cur, h => by
      rcases h with h | h
      · simpa [closeAll] using h
      · exact absurd rfl h
  | (t, sib) :: stk, cur, _ => by
      have hrec := closeAll_ne_nil stk (sib ++ [VNode.elem t [] cur none none])
        (Or.inl (by simp))
      simpa [closeAll] using hrec

theorem popTo_snd_ne : ∀ (t : String) (stk : List (String × List VNode))
    (cur : List VNode), cur ≠ [] ∨ stk ≠ [] → (popTo t stk cur).2 ≠ []
  | t, [], cur, h => by
      rcases h with h | h
      · simpa [popTo] using h
      · exact absurd rfl h
  | t, (u, sib) :: stk, cur, _ => by
      by_cases hu : u = t
      · simp [popTo, hu]
      · have hrec := popTo_snd_ne t stk (sib ++ [VNode.elem u [] cur none none])
          (Or.inl (by simp))
        simpa [popTo, hu] using hrec

/-- Recovery never empties the fragment: once the tokens still hold
content, or something was already built or opened, the built fragment
is nonempty. -/
theorem buildAux_ne_nil : ∀ (ts : List Tok) (stk : List (String × List VNode))
    (cur : List VNode),
    ts.any isContentTok = true ∨ cur ≠ [] ∨ stk ≠ [] →
    buildAux ts stk cur ≠ []
  | [], stk, cur, h => by
      rcases h with h | h
      · simp at h
      · exact closeAll_ne_nil stk cur h
  | Tok.ttxt s :: ts, stk, cur, _ => by
      have hrec := buildAux_ne_nil ts stk (cur ++ [VNode.text s none])
        (Or.inr (Or.inl (by simp)))
      simpa [buildAux] using hrec
  | Tok.topen t :: ts, stk, cur, _ => by
      have hrec := buildAux_ne_nil ts ((t, cur) :: stk) []
        (Or.inr (Or.inr (by simp)))
      simpa [buildAux] using hrec
  | Tok.tclose t :: ts, stk, cur, h => by
      have hh : ts.any isContentTok = true ∨ cur ≠ [] ∨ stk ≠ [] := by
        rcases h with h | h
        · left; simpa [isContentTok] using h
        · right; exact h
      by_cases hc : (stk.map (fun f => f.1)).contains t = true
      · have hstk : stk ≠ [] := by
          intro hnil
          rw [hnil] at hc
          simp at hc
        have hp : (popTo t stk cur).2 ≠ [] := popTo_snd_ne t stk cur (Or.inr hstk)
        have hrec := buildAux_ne_nil ts (popTo t stk cur).1 (popTo t stk cur).2
          (Or.inr (Or.inl hp))
        simp only [buildAux]
        rw [if_pos hc]
        exact hrec
      · have hrec := buildAux_ne_nil ts stk cur hh
        simp only [buildAux]
        rw [if_neg hc]
        exact hrec

/-- C7 (amended): the template compiler does not fail fast — it never
throws a parse error and never rejects malformed or unbalanced markup.
The platform fragment parser behind template.innerHTML error-corrects
per the HTML standard, so whenever the trimmed attribute-free markup
lexes and holds at least one open tag or text run — balanced or not —
parseHTML synchronously returns a virtual node; the compiler's only
synchronous failure is the TypeError of converting a null firstChild
when the parsed fragment is empty. -/
theorem c7_amended (s : String) (toks : List Tok)
    (hlex : markupToks s = some toks)
    (hcontent : toks.any isContentTok = true) :
    ∃ v, parseHTML s = some (some v) := by
  unfold markupToks at hlex
  rcases Option.bind_eq_some.mp hlex with ⟨p, hp, hl⟩
  have hne := buildAux_ne_nil toks [] [] (Or.inl hcontent)
  obtain ⟨n, rest, hcons⟩ := List.exists_cons_of_ne_nil hne
  refine ⟨n, ?_⟩
  simp only [parseHTML, innerHTMLModel, hp, Option.some_bind, hl, Option.map_some',
    hcons, List.head?_cons]

theorem c7_amended_witness :
    ∃ v, parseHTML "<div><span>hi</div>" = some (some v) :=
  c7_amended "<div><span>hi</div>"
    [Tok.topen "div", Tok.topen "span", Tok.ttxt "hi", Tok.tclose "div"]
    (by rfl) (by rfl)
